import Mathlib

/-!
Verification of the FreeNAS network migration
`gui/network/migrations/0009_move_options_and_mtu.py`.

Strings are modelled as `List Char`.  The regular-expression character
classes `\w`, `\d`, `\s` of the Python `re` module are modelled at their
ASCII meaning (the option strings handled by the migration are ASCII).
-/

namespace Migration0009

/-- Python `\w` (ASCII): alphanumeric or underscore. -/
def isWordChar (c : Char) : Bool := c.isAlphanum || c == '_'

/-- Python `\s` (ASCII): the six ASCII whitespace characters. -/
def isSpaceChar (c : Char) : Bool :=
  c == ' ' || c == '\t' || c == '\n' || c == '\r' || c == '\x0b' || c == '\x0c'

/-- Auxiliary for `replaceAll`: delete the left-to-right non-overlapping
occurrences of the non-empty pattern `p :: ps`, as Python
`str.replace(old, '')` does.  The `fuel` argument only makes the recursion
structural; every step consumes at least one character, so `fuel = length`
is always enough (`replaceRun_fuel`). -/
def replaceRun (p : Char) (ps : List Char) : Nat → List Char → List Char
  | _, [] => []
  | 0, l => l
  | fuel + 1, c :: rest =>
    if (p :: ps).isPrefixOf (c :: rest) then replaceRun p ps fuel (rest.drop ps.length)
    else c :: replaceRun p ps fuel rest

/-- Python `s.replace(pat, '')`.  The migration only calls it with the
non-empty patterns `"up "`, `" up"` and `" up "`. -/
def replaceAll (pat : List Char) (s : List Char) : List Char :=
  match pat with
  | [] => s
  | p :: ps => replaceRun p ps s.length s

/-- The options value computed by `move_laggmember_options` for one
`LAGGInterfaceMember.lagg_deviceoptions` string:

    options = ''
    if d != 'up':
        if d.startswith('up'): options = d.replace('up ', '')
        elif d.endswith('up'): options = d.replace(' up', '')
        else: options = d.replace(' up ', '')
-/
def laggOptions (d : List Char) : List Char :=
  if d = ['u', 'p'] then []
  else if ['u', 'p'].isPrefixOf d then replaceAll ['u', 'p', ' '] d
  else if ['u', 'p'].isSuffixOf d then replaceAll [' ', 'u', 'p'] d
  else replaceAll [' ', 'u', 'p', ' '] d

/-- Is the character at index `i` a word character?  Out-of-range counts
as a non-word position (used for the `\b` word-boundary tests). -/
def wordAt (s : List Char) (i : Nat) : Bool :=
  match s[i]? with
  | some c => isWordChar c
  | none => false

/-- Does `\bmtu (?P<mtu>\d+)\b` match at position `t` of `s`?  Returns the
captured digit group and the end position of the match.  `\d+` is greedy and
backtracking cannot shorten it (a boundary between two digits is impossible),
so the digit group is the maximal digit run after `"mtu "`, and the `\b`
after it requires a non-word character (or the end) next. -/
def tokenAt (s : List Char) (t : Nat) : Option (List Char × Nat) :=
  if t = 0 || !wordAt s (t - 1) then
    if ['m', 't', 'u', ' '].isPrefixOf (s.drop t) then
      let ds := (s.drop (t + 4)).takeWhile Char.isDigit
      if ds.isEmpty then none
      else if wordAt s (t + 4 + ds.length) then none
      else some (ds, t + 4 + ds.length)
    else none
  else none

/-- End (exclusive) of the line containing position `i`: the first index
`≥ i` holding `'\n'`, or the length of the string.  `.` in the pattern does
not match a newline. -/
def lineEnd (s : List Char) (i : Nat) : Nat :=
  i + ((s.drop i).takeWhile (fun c => c ≠ '\n')).length

/-- Matching `(?P<before>.*)\bmtu (?P<mtu>\d+)\b` from start position `s0`:
the greedy `before` tries the longest newline-free extent first, so the
token positions `t` are tried from `lineEnd s s0` down to `s0`. -/
def tryStart (s : List Char) (s0 : Nat) : Option (Nat × List Char × Nat) :=
  ((List.range (lineEnd s s0 - s0 + 1)).map (fun k => lineEnd s s0 - k)).findSome?
    (fun t => (tokenAt s t).map (fun de => (t, de.1, de.2)))

/-- `re.search(RE_MTU, s)`: the start positions are tried left to right;
returns `(s0, t, digits, e)` where `s0` is the match start, `t` the position
of the `mtu` token, and `e` the end of the digit group. -/
def reSearchPos (s : List Char) : Option (Nat × Nat × List Char × Nat) :=
  (List.range (s.length + 1)).findSome?
    (fun s0 => (tryStart s s0).map (fun r => (s0, r.1, r.2.1, r.2.2)))

/-- The three captured groups of `RE_MTU.search(s)`: `before` is the text
from the match start to the token, `mtu` the digit group, `after` the
greedy `.*` following the digits (up to the next newline or the end). -/
def reSearchGroups (s : List Char) : Option (List Char × List Char × List Char) :=
  (reSearchPos s).map (fun r =>
    ((s.drop r.1).take (r.2.1 - r.1), r.2.2.1,
      (s.drop r.2.2.2).takeWhile (fun c => c ≠ '\n')))

/-- `int()` on a string of decimal digits. -/
def digitsToNat (ds : List Char) : Nat :=
  ds.foldl (fun n c => 10 * n + (c.toNat - '0'.toNat)) 0

/-- Auxiliary for `collapseWs`, with a structural fuel argument; every step
consumes at least one character, so `fuel = length` is enough
(`collapseRun_fuel`). -/
def collapseRun : Nat → List Char → List Char
  | _, [] => []
  | _, [c] => [c]
  | 0, l => l
  | fuel + 1, c1 :: c2 :: rest =>
    if isSpaceChar c1 && isSpaceChar c2 then
      ' ' :: collapseRun fuel ((c2 :: rest).dropWhile isSpaceChar)
    else c1 :: collapseRun fuel (c2 :: rest)

/-- Python `re.sub(r'\s{2,}', ' ', s)`: each maximal run of two or more
whitespace characters becomes a single space; single whitespace characters
are kept as they are. -/
def collapseWs (s : List Char) : List Char := collapseRun s.length s

/-- A row of the `network_interfaces` table (the fields the migration
touches; `int_mtu` is the column added by the migration, absent — i.e.
`none` — before it is populated). -/
structure Iface where
  int_interface : List Char
  int_name : List Char
  int_options : List Char
  int_mtu : Option Nat
deriving DecidableEq

instance : Inhabited Iface := ⟨⟨[], [], [], none⟩⟩

/-- A row of `network_lagginterfacemembers`; `lagg_interfacegroup` is the
foreign key (modelled as the index into the LAGG list). -/
structure LaggMember where
  lagg_interfacegroup : Nat
  lagg_physnic : List Char
  lagg_deviceoptions : List Char
deriving DecidableEq

/-- A row of `network_lagginterface`; `lagg_interface` is the foreign key to
the parent `Iface` row (modelled as the index into the interface list). -/
structure LaggIface where
  lagg_interface : Nat
deriving DecidableEq

instance : Inhabited LaggIface := ⟨⟨0⟩⟩

/-- The database state the migration operates on. -/
structure DB where
  interfaces : List Iface
  laggs : List LaggIface
  members : List LaggMember
deriving DecidableEq

/-- `Interfaces.objects.filter(int_interface=nic)[0]`, as the index of the
first matching row. -/
def findIface (l : List Iface) (nic : List Char) : Option Nat :=
  l.findIdx? (fun i => i.int_interface = nic)

/-- One iteration of the loop of `move_laggmember_options`: relocate one
member's device options onto the matching interface row, creating the row
when it is absent. -/
def relocateStep (laggs : List LaggIface) (ifaces : List Iface) (m : LaggMember) :
    List Iface :=
  let options := laggOptions m.lagg_deviceoptions
  match findIface ifaces m.lagg_physnic with
  | some idx =>
    let r := ifaces.getD idx default
    ifaces.set idx { r with int_options := options }
  | none =>
    let parentIdx := (laggs.getD m.lagg_interfacegroup default).lagg_interface
    let pname := (ifaces.getD parentIdx default).int_interface
    ifaces ++ [⟨m.lagg_physnic, ("member of ".toList) ++ pname, options, none⟩]

/-- `move_laggmember_options`: process every `LAGGInterfaceMembers` row in
database order. -/
def moveLaggmemberOptions (db : DB) : DB :=
  { db with interfaces := db.members.foldl (relocateStep db.laggs) db.interfaces }

/-- The per-interface body of the first loop of `move_mtu_from_options`:
skip empty options, skip non-matching options, otherwise move the matched
number into `int_mtu` and collapse the whitespace of the remaining text. -/
def extractIface (i : Iface) : Iface :=
  if i.int_options.isEmpty then i
  else
    match reSearchGroups i.int_options with
    | none => i
    | some (b, ds, a) =>
      { i with int_mtu := some (digitsToNat ds),
               int_options := collapseWs (b ++ a) }

/-- `if not lowest_mtu or interface.int_mtu < lowest_mtu: lowest_mtu = ...`:
Python truthiness makes both `None` and `0` pass `not lowest_mtu`. -/
def lowestUpdate (lo : Option Nat) (v : Nat) : Option Nat :=
  match lo with
  | none => some v
  | some l => if l = 0 || v < l then some v else lo

/-- The body of the member loop of the LAGG consolidation: Python truthiness
makes both `None` and `0` fall through `if interface.int_mtu:`. -/
def consolidateMemberStep (st : List Iface × Option Nat) (m : LaggMember) :
    List Iface × Option Nat :=
  match findIface st.1 m.lagg_physnic with
  | none => st
  | some idx =>
    let r := st.1.getD idx default
    match r.int_mtu with
    | none => st
    | some v =>
      if v = 0 then st
      else (st.1.set idx { r with int_mtu := none }, lowestUpdate st.2 v)

/-- The member loop of the consolidation, threading the interface table and
the running `lowest_mtu`. -/
def consolidateMembers (ifaces : List Iface) (lo : Option Nat)
    (ms : List LaggMember) : List Iface × Option Nat :=
  ms.foldl consolidateMemberStep (ifaces, lo)

/-- Consolidation for the LAGG row `lg` at index `k`: scan its members,
clearing their interfaces' MTUs and tracking the running minimum, then —
if a (truthy) minimum was found — store it on the parent interface row. -/
def consolidateLagg (members : List LaggMember) (ifaces : List Iface)
    (k : Nat) (lg : LaggIface) : List Iface :=
  let st := consolidateMembers ifaces none
    (members.filter (fun m => m.lagg_interfacegroup = k))
  match st.2 with
  | none => st.1
  | some v =>
    if v = 0 then st.1
    else
      let p := st.1.getD lg.lagg_interface default
      st.1.set lg.lagg_interface { p with int_mtu := some v }

/-- `move_mtu_from_options`: MTU extraction over every interface row,
followed by the per-LAGG consolidation. -/
def moveMtuFromOptions (db : DB) : DB :=
  let ifs1 := db.interfaces.map extractIface
  { db with
    interfaces := (db.laggs.enum).foldl
      (fun acc kl => consolidateLagg db.members acc kl.1 kl.2) ifs1 }

/-- The data transform of the whole migration: options relocation, then MTU
extraction and consolidation (the schema operations between them do not
change the modelled data). -/
def fullMigration (db : DB) : DB :=
  moveMtuFromOptions (moveLaggmemberOptions db)

/-- Does `s` contain a standalone `mtu <N>` token (an `RE_MTU` match)? -/
def containsMtuToken (s : List Char) : Bool :=
  (List.range (s.length + 1)).any (fun t => (tokenAt s t).isSome)

/-- Number of positions of `s` where `pat` occurs as a substring. -/
def countOcc (pat s : List Char) : Nat :=
  (List.range (s.length + 1)).countP (fun p => pat.isPrefixOf (s.drop p))

/-- The indices of the interface rows matched by the members' NICs (in
member order, skipping members without a row). -/
def memberIdxs (ifaces : List Iface) (ms : List LaggMember) : List Nat :=
  ms.filterMap (fun m => findIface ifaces m.lagg_physnic)

/-- The truthy (non-null, non-zero) MTU of the interface row at `idx`. -/
def posMtu (ifaces : List Iface) (idx : Nat) : Option Nat :=
  match (ifaces.getD idx default).int_mtu with
  | none => none
  | some v => if v = 0 then none else some v

/-- The truthy MTUs of the interface rows matched by the members' NICs. -/
def memberMtus (ifaces : List Iface) (ms : List LaggMember) : List Nat :=
  (memberIdxs ifaces ms).filterMap (posMtu ifaces)

/-- The running minimum of the member loop, as a fold of `lowestUpdate`. -/
def runMin (lo : Option Nat) (vals : List Nat) : Option Nat :=
  vals.foldl lowestUpdate lo

/-- The effect of one consolidation pass on one interface row: a truthy MTU
is cleared, anything else is untouched. -/
def clearMtu (r : Iface) : Iface :=
  match r.int_mtu with
  | none => r
  | some v => if v = 0 then r else { r with int_mtu := none }

/-! ### Properties of the string helpers -/

theorem replaceRun_fuel (p : Char) (ps : List Char) :
    ∀ (fuel₁ : Nat) (l : List Char) (fuel₂ : Nat), l.length ≤ fuel₁ → l.length ≤ fuel₂ →
      replaceRun p ps fuel₁ l = replaceRun p ps fuel₂ l := by
  intro fuel₁
  induction fuel₁ with
  | zero =>
    intro l fuel₂ h₁ _
    obtain rfl : l = [] := List.length_eq_zero.mp (Nat.le_zero.mp h₁)
    cases fuel₂ <;> rfl
  | succ n ih =>
    intro l fuel₂ h₁ h₂
    cases l with
    | nil => cases fuel₂ <;> rfl
    | cons c rest =>
      cases fuel₂ with
      | zero => simp at h₂
      | succ m =>
        show (if (p :: ps).isPrefixOf (c :: rest) then replaceRun p ps n (rest.drop ps.length)
              else c :: replaceRun p ps n rest) =
            (if (p :: ps).isPrefixOf (c :: rest) then replaceRun p ps m (rest.drop ps.length)
              else c :: replaceRun p ps m rest)
        simp only [List.length_cons] at h₁ h₂
        by_cases hif : (p :: ps).isPrefixOf (c :: rest) = true
        · rw [if_pos hif, if_pos hif]
          exact ih (rest.drop ps.length) m (by simp; omega) (by simp; omega)
        · rw [if_neg hif, if_neg hif]
          exact congrArg (c :: ·) (ih rest m (by omega) (by omega))

/-- Unfolding lemma for `replaceAll` on a cons cell. -/
theorem replaceAll_cons (p c : Char) (ps rest : List Char) :
    replaceAll (p :: ps) (c :: rest) =
      if (p :: ps).isPrefixOf (c :: rest) then replaceAll (p :: ps) (rest.drop ps.length)
      else c :: replaceAll (p :: ps) rest := by
  show replaceRun p ps (rest.length + 1) (c :: rest) = _
  show (if (p :: ps).isPrefixOf (c :: rest) then replaceRun p ps rest.length (rest.drop ps.length)
        else c :: replaceRun p ps rest.length rest) = _
  by_cases hif : (p :: ps).isPrefixOf (c :: rest) = true
  · rw [if_pos hif, if_pos hif]
    exact replaceRun_fuel p ps _ _ _ (by simp) (Nat.le_refl _)
  · rw [if_neg hif, if_neg hif]
    rfl

@[simp] theorem replaceAll_nil (pat : List Char) : replaceAll pat [] = [] := by
  cases pat <;> rfl

/-- A string containing no occurrence of the pattern is left unchanged. -/
theorem replaceAll_eq_self (p : Char) (ps : List Char) (l : List Char)
    (h : ¬ ((p :: ps) <:+: l)) : replaceAll (p :: ps) l = l := by
  induction l with
  | nil => rfl
  | cons c rest ih =>
    rw [replaceAll_cons]
    have hpre : ¬ ((p :: ps).isPrefixOf (c :: rest) = true) := fun hp =>
      h (List.IsPrefix.isInfix (List.isPrefixOf_iff_prefix.mp hp))
    rw [if_neg hpre, ih (fun hi => h (List.infix_cons hi))]

/-- Deleting an occurrence of the pattern sitting at the front. -/
theorem replaceAll_prefix_step (p : Char) (ps tail : List Char) :
    replaceAll (p :: ps) (p :: (ps ++ tail)) = replaceAll (p :: ps) tail := by
  rw [replaceAll_cons]
  have hpre : (p :: ps).isPrefixOf (p :: (ps ++ tail)) = true := by
    rw [List.isPrefixOf_iff_prefix]
    exact ⟨tail, by simp⟩
  rw [if_pos hpre, List.drop_left]

theorem collapseRun_fuel :
    ∀ (fuel₁ : Nat) (l : List Char) (fuel₂ : Nat), l.length ≤ fuel₁ → l.length ≤ fuel₂ →
      collapseRun fuel₁ l = collapseRun fuel₂ l := by
  intro fuel₁
  induction fuel₁ with
  | zero =>
    intro l fuel₂ h₁ _
    obtain rfl : l = [] := List.length_eq_zero.mp (Nat.le_zero.mp h₁)
    cases fuel₂ <;> rfl
  | succ n ih =>
    intro l fuel₂ h₁ h₂
    match l, h₁, h₂ with
    | [], _, _ => cases fuel₂ <;> rfl
    | [c], _, _ => cases fuel₂ <;> rfl
    | c1 :: c2 :: rest, h₁, h₂ =>
      cases fuel₂ with
      | zero => simp at h₂
      | succ m =>
        show (if isSpaceChar c1 && isSpaceChar c2 then
                ' ' :: collapseRun n ((c2 :: rest).dropWhile isSpaceChar)
              else c1 :: collapseRun n (c2 :: rest)) =
            (if isSpaceChar c1 && isSpaceChar c2 then
                ' ' :: collapseRun m ((c2 :: rest).dropWhile isSpaceChar)
              else c1 :: collapseRun m (c2 :: rest))
        simp only [List.length_cons] at h₁ h₂
        have hdw := (List.dropWhile_sublist (l := c2 :: rest) isSpaceChar).length_le
        simp only [List.length_cons] at hdw
        by_cases hif : (isSpaceChar c1 && isSpaceChar c2) = true
        · rw [if_pos hif, if_pos hif]
          exact congrArg (' ' :: ·)
            (ih ((c2 :: rest).dropWhile isSpaceChar) m (by omega) (by omega))
        · rw [if_neg hif, if_neg hif]
          exact congrArg (c1 :: ·) (ih (c2 :: rest) m (by simp; omega) (by simp; omega))

@[simp] theorem collapseWs_nil : collapseWs [] = [] := rfl

@[simp] theorem collapseWs_singleton (c : Char) : collapseWs [c] = [c] := rfl

/-- Unfolding lemma for `collapseWs` on two leading characters. -/
theorem collapseWs_cons₂ (c1 c2 : Char) (rest : List Char) :
    collapseWs (c1 :: c2 :: rest) =
      if isSpaceChar c1 && isSpaceChar c2 then
        ' ' :: collapseWs ((c2 :: rest).dropWhile isSpaceChar)
      else c1 :: collapseWs (c2 :: rest) := by
  show (if isSpaceChar c1 && isSpaceChar c2 then
          ' ' :: collapseRun (rest.length + 1) ((c2 :: rest).dropWhile isSpaceChar)
        else c1 :: collapseRun (rest.length + 1) (c2 :: rest)) = _
  have hdw := (List.dropWhile_sublist (l := c2 :: rest) isSpaceChar).length_le
  simp only [List.length_cons] at hdw
  by_cases hif : (isSpaceChar c1 && isSpaceChar c2) = true
  · rw [if_pos hif, if_pos hif]
    exact congrArg (' ' :: ·)
      (collapseRun_fuel (rest.length + 1) ((c2 :: rest).dropWhile isSpaceChar) _
        (by omega) (Nat.le_refl _))
  · rw [if_neg hif, if_neg hif]
    exact congrArg (c1 :: ·)
      (collapseRun_fuel (rest.length + 1) (c2 :: rest) _ (by simp) (Nat.le_refl _))

/-! ### Claims C2, C3, C4: the options relocation on device_options strings -/

/-- Core of C4: deleting a trailing `" up"`.  When `rest` contains no
occurrence of `" up"`, Python `replace(' up', '')` deletes exactly the
trailing token. -/
theorem replaceAll_trailing_up (rest : List Char)
    (h : ¬ ([' ', 'u', 'p'] <:+: rest)) :
    replaceAll [' ', 'u', 'p'] (rest ++ [' ', 'u', 'p']) = rest := by
  induction rest with
  | nil => decide
  | cons c r ih =>
    rw [List.cons_append, replaceAll_cons]
    by_cases hpre : ([' ', 'u', 'p'].isPrefixOf (c :: (r ++ [' ', 'u', 'p']))) = true
    · exfalso
      obtain ⟨t, ht⟩ := List.isPrefixOf_iff_prefix.mp hpre
      match r, ht with
      | [], ht =>
        have ha := congrArg (fun l => l[1]?) ht
        simp at ha
      | [x], ht =>
        have ha := congrArg (fun l => l[2]?) ht
        simp at ha
      | x :: y :: r', ht =>
        have e0 := congrArg (fun l => l[0]?) ht
        have e1 := congrArg (fun l => l[1]?) ht
        have e2 := congrArg (fun l => l[2]?) ht
        simp at e0 e1 e2
        exact h (List.IsPrefix.isInfix ⟨r', by rw [← e0, ← e1, ← e2]; rfl⟩)
    · rw [if_neg hpre, ih (fun hi => h (List.infix_cons hi))]

/-- Core of C3: deleting an interior `" up "`.  When neither `pre` nor
`post` contains `" up "` and `pre` does not end in `" up"`, Python
`replace(' up ', '')` deletes exactly the interior token, leaving
`pre ++ post` with no separating space. -/
theorem replaceAll_interior_up (pre post : List Char)
    (h1 : ¬ ([' ', 'u', 'p', ' '] <:+: pre)) (h2 : ¬ ([' ', 'u', 'p'] <:+ pre))
    (h3 : ¬ ([' ', 'u', 'p', ' '] <:+: post)) :
    replaceAll [' ', 'u', 'p', ' '] (pre ++ [' ', 'u', 'p', ' '] ++ post) = pre ++ post := by
  induction pre with
  | nil =>
    simp only [List.nil_append]
    calc replaceAll [' ', 'u', 'p', ' '] ([' ', 'u', 'p', ' '] ++ post)
        = replaceAll [' ', 'u', 'p', ' '] post := replaceAll_prefix_step ' ' ['u', 'p', ' '] post
      _ = post := replaceAll_eq_self ' ' ['u', 'p', ' '] post h3
  | cons c p' ih =>
    have hl : (c :: p') ++ [' ', 'u', 'p', ' '] ++ post
        = c :: (p' ++ [' ', 'u', 'p', ' '] ++ post) := by simp
    rw [hl, replaceAll_cons]
    by_cases hpre :
        ([' ', 'u', 'p', ' '].isPrefixOf (c :: (p' ++ [' ', 'u', 'p', ' '] ++ post))) = true
    · exfalso
      obtain ⟨t, ht⟩ := List.isPrefixOf_iff_prefix.mp hpre
      match p', ht with
      | [], ht =>
        have ha := congrArg (fun l => l[1]?) ht
        simp at ha
      | [x], ht =>
        have ha := congrArg (fun l => l[2]?) ht
        simp at ha
      | [x, y], ht =>
        have e0 := congrArg (fun l => l[0]?) ht
        have e1 := congrArg (fun l => l[1]?) ht
        have e2 := congrArg (fun l => l[2]?) ht
        simp at e0 e1 e2
        exact h2 ⟨[], by rw [← e0, ← e1, ← e2]; rfl⟩
      | x :: y :: z :: p'', ht =>
        have e0 := congrArg (fun l => l[0]?) ht
        have e1 := congrArg (fun l => l[1]?) ht
        have e2 := congrArg (fun l => l[2]?) ht
        have e3 := congrArg (fun l => l[3]?) ht
        simp at e0 e1 e2 e3
        exact h1 (List.IsPrefix.isInfix ⟨p'', by rw [← e0, ← e1, ← e2, ← e3]; rfl⟩)
    · rw [if_neg hpre]
      rw [ih (fun hi => h1 (List.infix_cons hi))
            (fun hsuf => h2 (hsuf.trans (List.suffix_cons c p')))]
      rfl

/-- C2 (amended): for every device_options of the form `"up " ++ rest` where
`rest` contains no further occurrence of `"up "`, the relocated options
equal `rest` (in general `replace('up ', '')` deletes every occurrence,
not only the leading token). -/
theorem laggOptions_up_prefix (rest : List Char)
    (h : ¬ (['u', 'p', ' '] <:+: rest)) :
    laggOptions (['u', 'p', ' '] ++ rest) = rest := by
  have hne : ['u', 'p', ' '] ++ rest ≠ ['u', 'p'] := by
    intro hc; have := congrArg List.length hc; simp at this
  have hpre : ['u', 'p'].isPrefixOf (['u', 'p', ' '] ++ rest) = true := by
    rw [List.isPrefixOf_iff_prefix]
    exact ⟨' ' :: rest, rfl⟩
  unfold laggOptions
  rw [if_neg hne, if_pos hpre]
  calc replaceAll ['u', 'p', ' '] (['u', 'p', ' '] ++ rest)
      = replaceAll ['u', 'p', ' '] rest := replaceAll_prefix_step 'u' ['p', ' '] rest
    _ = rest := replaceAll_eq_self 'u' ['p', ' '] rest h

/-- C2 witness: device_options `"up mtu 9000"` relocates to `"mtu 9000"`. -/
theorem laggOptions_up_prefix_witness :
    laggOptions (['u', 'p', ' '] ++ "mtu 9000".toList) = "mtu 9000".toList :=
  laggOptions_up_prefix ("mtu 9000".toList) (by decide)

/-- C2 counterexample: for device_options `"up up x"` (= `"up " ++ "up x"`)
the code computes `"x"`, not `rest = "up x"`: every occurrence of `"up "`
is removed, not only the leading token. -/
theorem laggOptions_up_prefix_cex :
    laggOptions (['u', 'p', ' '] ++ "up x".toList) ≠ "up x".toList := by decide

/-- C3 (amended): for device_options = `pre ++ " up " ++ post` that neither
starts nor ends with `"up"`, where the shown occurrence of `" up "` is the
only one, the relocated options equal `pre ++ post` — the whole
four-character token including both spaces is deleted, with no separating
space left and no whitespace collapsing in this phase. -/
theorem laggOptions_interior_up (pre post : List Char)
    (hp : ¬ (['u', 'p'] <+: (pre ++ [' ', 'u', 'p', ' '] ++ post)))
    (hs : ¬ (['u', 'p'] <:+ (pre ++ [' ', 'u', 'p', ' '] ++ post)))
    (h1 : ¬ ([' ', 'u', 'p', ' '] <:+: pre)) (h2 : ¬ ([' ', 'u', 'p'] <:+ pre))
    (h3 : ¬ ([' ', 'u', 'p', ' '] <:+: post)) :
    laggOptions (pre ++ [' ', 'u', 'p', ' '] ++ post) = pre ++ post := by
  have hne : pre ++ [' ', 'u', 'p', ' '] ++ post ≠ ['u', 'p'] := by
    intro hc; have := congrArg List.length hc; simp at this; omega
  have hpre : ¬ (['u', 'p'].isPrefixOf (pre ++ [' ', 'u', 'p', ' '] ++ post) = true) :=
    fun hb => hp (List.isPrefixOf_iff_prefix.mp hb)
  have hsuf : ¬ (['u', 'p'].isSuffixOf (pre ++ [' ', 'u', 'p', ' '] ++ post) = true) :=
    fun hb => hs (List.isSuffixOf_iff_suffix.mp hb)
  unfold laggOptions
  rw [if_neg hne, if_neg hpre, if_neg hsuf]
  exact replaceAll_interior_up pre post h1 h2 h3

/-- C3 witness: device_options `"foo up bar"` relocates to `"foobar"`. -/
theorem laggOptions_interior_up_witness :
    laggOptions ("foo".toList ++ [' ', 'u', 'p', ' '] ++ "bar".toList)
      = "foo".toList ++ "bar".toList :=
  laggOptions_interior_up ("foo".toList) ("bar".toList)
    (by decide) (by decide) (by decide) (by decide) (by decide)

/-- C3 counterexample: for device_options `"foo up bar"` the code computes
`"foobar"`, not the claimed `pre ++ " " ++ post = "foo bar"`: the deleted
token includes both surrounding spaces. -/
theorem laggOptions_interior_up_cex :
    laggOptions ("foo up bar".toList) ≠ "foo bar".toList := by decide

/-- C4 (amended): for every device_options of the form `rest ++ " up"` that
does not start with `"up"`, where `rest` contains no further occurrence of
`" up"`, the relocated options equal `rest` (in general `replace(' up', '')`
deletes every occurrence, not only the trailing token). -/
theorem laggOptions_up_suffix (rest : List Char)
    (hp : ¬ (['u', 'p'] <+: (rest ++ [' ', 'u', 'p'])))
    (h : ¬ ([' ', 'u', 'p'] <:+: rest)) :
    laggOptions (rest ++ [' ', 'u', 'p']) = rest := by
  have hne : rest ++ [' ', 'u', 'p'] ≠ ['u', 'p'] := by
    intro hc; have := congrArg List.length hc; simp at this
  have hpre : ¬ (['u', 'p'].isPrefixOf (rest ++ [' ', 'u', 'p']) = true) := fun hb =>
    hp (List.isPrefixOf_iff_prefix.mp hb)
  have hsuf : ['u', 'p'].isSuffixOf (rest ++ [' ', 'u', 'p']) = true := by
    rw [List.isSuffixOf_iff_suffix]
    exact ⟨rest ++ [' '], by simp⟩
  unfold laggOptions
  rw [if_neg hne, if_neg hpre, if_pos hsuf]
  exact replaceAll_trailing_up rest h

/-- C4 witness: device_options `"mtu 9000 up"` relocates to `"mtu 9000"`. -/
theorem laggOptions_up_suffix_witness :
    laggOptions ("mtu 9000".toList ++ [' ', 'u', 'p']) = "mtu 9000".toList :=
  laggOptions_up_suffix ("mtu 9000".toList) (by decide) (by decide)

/-- C4 counterexample: for device_options `"a up b up"` (= `"a up b" ++ " up"`)
the code computes `"a b"`, not `rest = "a up b"`: every occurrence of
`" up"` is removed, not only the trailing token. -/
theorem laggOptions_up_suffix_cex :
    laggOptions ("a up b".toList ++ [' ', 'u', 'p']) ≠ "a up b".toList := by decide

/-! ### Claim C5: the MTU extractor on a matching record -/

/-- C5: when the (non-empty) options string matches `RE_MTU`, the extractor
stores the parsed integer of the captured digit group in `int_mtu` and
replaces `int_options` by the captured before-text concatenated with the
after-text, with every run of two-or-more whitespace characters collapsed
to one space. -/
theorem extract_sets_mtu_and_options (i : Iface) (b ds a : List Char)
    (h0 : i.int_options ≠ [])
    (h : reSearchGroups i.int_options = some (b, ds, a)) :
    (extractIface i).int_mtu = some (digitsToNat ds) ∧
    (extractIface i).int_options = collapseWs (b ++ a) := by
  have hne : ¬ (i.int_options.isEmpty = true) := by
    rw [List.isEmpty_iff]; exact h0
  unfold extractIface
  rw [if_neg hne, h]
  exact ⟨rfl, rfl⟩

/-- C5 witness: `options = "foo mtu 9000 bar"` yields `mtu = 9000` and
`options = "foo bar"`. -/
theorem extract_sets_mtu_and_options_witness :
    (extractIface ⟨"em0".toList, [], "foo mtu 9000 bar".toList, none⟩).int_mtu = some 9000 ∧
    (extractIface ⟨"em0".toList, [], "foo mtu 9000 bar".toList, none⟩).int_options
      = "foo bar".toList := by
  have h := extract_sets_mtu_and_options ⟨"em0".toList, [], "foo mtu 9000 bar".toList, none⟩
    ("foo ".toList) ("9000".toList) (" bar".toList) (by decide) (by decide)
  exact ⟨by rw [h.1]; decide, by rw [h.2]; decide⟩

/-! ### Claims C7 and C10: the relocator's effect on the interface table -/

/-- C7: for a member whose NIC has no Interface row, the relocator appends a
new row with the NIC as `int_interface`, name `"member of <parent name>"`
(the owning LAGG's interface name) and the computed options; when a row
exists, its options are overwritten with the computed value instead. -/
theorem relocateStep_create_or_update (laggs : List LaggIface) (ifaces : List Iface)
    (m : LaggMember) :
    (findIface ifaces m.lagg_physnic = none →
      relocateStep laggs ifaces m = ifaces ++
        [⟨m.lagg_physnic,
          "member of ".toList ++
            (ifaces.getD (laggs.getD m.lagg_interfacegroup default).lagg_interface
              default).int_interface,
          laggOptions m.lagg_deviceoptions, none⟩]) ∧
    (∀ idx, findIface ifaces m.lagg_physnic = some idx →
      relocateStep laggs ifaces m =
        ifaces.set idx
          { ifaces.getD idx default with
              int_options := laggOptions m.lagg_deviceoptions }) := by
  constructor
  · intro h
    unfold relocateStep
    rw [h]
  · intro idx h
    unfold relocateStep
    rw [h]

/-- C7 witness: a member on NIC `em0` of LAGG `lagg0` with no `em0` row
creates `⟨em0, "member of lagg0", relocated options⟩`; with an existing
`em0` row, only the options are overwritten. -/
theorem relocateStep_create_or_update_witness :
    relocateStep [⟨0⟩] [⟨"lagg0".toList, "lagg0".toList, [], none⟩]
        ⟨0, "em0".toList, "up mtu 9000".toList⟩ =
      [⟨"lagg0".toList, "lagg0".toList, [], none⟩,
        ⟨"em0".toList, "member of lagg0".toList, "mtu 9000".toList, none⟩] ∧
    relocateStep [⟨0⟩] [⟨"em0".toList, "nic0".toList, "old".toList, none⟩]
        ⟨0, "em0".toList, "up mtu 9000".toList⟩ =
      [⟨"em0".toList, "nic0".toList, "mtu 9000".toList, none⟩] := by
  constructor
  · have h := (relocateStep_create_or_update [⟨0⟩]
      [⟨"lagg0".toList, "lagg0".toList, [], none⟩]
      ⟨0, "em0".toList, "up mtu 9000".toList⟩).1 (by decide)
    rw [h]; decide
  · have h := (relocateStep_create_or_update [⟨0⟩]
      [⟨"em0".toList, "nic0".toList, "old".toList, none⟩]
      ⟨0, "em0".toList, "up mtu 9000".toList⟩).2 0 (by decide)
    rw [h]; decide

/-- C10: when an Interface row already exists for the member's NIC, the
relocator modifies only that row's `int_options`: the table keeps its
length (no row is created), all other rows are untouched, and the matched
row keeps its `int_interface`, `int_name` and `int_mtu`. -/
theorem relocateStep_frame (laggs : List LaggIface) (ifaces : List Iface)
    (m : LaggMember) (idx : Nat) (h : findIface ifaces m.lagg_physnic = some idx) :
    (relocateStep laggs ifaces m).length = ifaces.length ∧
    (∀ j, j ≠ idx → (relocateStep laggs ifaces m)[j]? = ifaces[j]?) ∧
    (relocateStep laggs ifaces m)[idx]? =
      some { ifaces.getD idx default with
              int_options := laggOptions m.lagg_deviceoptions } := by
  have hstep : relocateStep laggs ifaces m =
      ifaces.set idx { ifaces.getD idx default with
        int_options := laggOptions m.lagg_deviceoptions } := by
    unfold relocateStep; rw [h]
  have h' : ifaces.findIdx? (fun i => i.int_interface = m.lagg_physnic) = some idx := h
  obtain ⟨hlt, -, -⟩ := List.findIdx?_eq_some_iff_getElem.mp h'
  refine ⟨?_, ?_, ?_⟩
  · rw [hstep]; exact List.length_set ifaces idx _
  · intro j hj
    rw [hstep]
    exact List.getElem?_set_ne (Ne.symm hj)
  · rw [hstep]
    exact List.getElem?_set_self hlt

/-- C10 witness: overwriting the options of the existing `em0` row leaves
the table length, the other row, and the row's name, physical id and mtu
unchanged. -/
theorem relocateStep_frame_witness :
    (relocateStep [⟨0⟩]
        [⟨"em0".toList, "nic0".toList, "old opts".toList, some 1500⟩,
          ⟨"em1".toList, [], [], none⟩]
        ⟨0, "em0".toList, "up".toList⟩).length = 2 ∧
    (relocateStep [⟨0⟩]
        [⟨"em0".toList, "nic0".toList, "old opts".toList, some 1500⟩,
          ⟨"em1".toList, [], [], none⟩]
        ⟨0, "em0".toList, "up".toList⟩)[1]? = some ⟨"em1".toList, [], [], none⟩ ∧
    (relocateStep [⟨0⟩]
        [⟨"em0".toList, "nic0".toList, "old opts".toList, some 1500⟩,
          ⟨"em1".toList, [], [], none⟩]
        ⟨0, "em0".toList, "up".toList⟩)[0]? =
      some ⟨"em0".toList, "nic0".toList, [], some 1500⟩ := by
  have h := relocateStep_frame [⟨0⟩]
    [⟨"em0".toList, "nic0".toList, "old opts".toList, some 1500⟩,
      ⟨"em1".toList, [], [], none⟩]
    ⟨0, "em0".toList, "up".toList⟩ 0 (by decide)
  refine ⟨by rw [h.1]; decide, ?_, ?_⟩
  · rw [h.2.1 1 (by decide)]; decide
  · rw [h.2.2]; decide

/-! ### Claim C8: the extractor is a no-op without an mtu token -/

theorem lineEnd_le (s : List Char) (i : Nat) (h : i ≤ s.length) :
    lineEnd s i ≤ s.length := by
  unfold lineEnd
  have h1 := (List.takeWhile_prefix (l := s.drop i) (fun c => c ≠ '\n')).length_le
  rw [List.length_drop] at h1
  omega

/-- If no position of `s` carries an `RE_MTU` token, the regex search
fails. -/
theorem reSearchPos_eq_none (s : List Char)
    (h : ∀ t, t ≤ s.length → tokenAt s t = none) : reSearchPos s = none := by
  unfold reSearchPos
  apply List.findSome?_eq_none_iff.mpr
  intro s0 hs0
  have hs0' : s0 ≤ s.length := by
    have := List.mem_range.mp hs0; omega
  have ht : tryStart s s0 = none := by
    unfold tryStart
    apply List.findSome?_eq_none_iff.mpr
    intro t htm
    obtain ⟨k, hk, rfl⟩ := List.mem_map.mp htm
    have hle := lineEnd_le s s0 hs0'
    rw [h _ (by omega)]
    rfl
  rw [ht]
  rfl

/-- C8: MTU extraction leaves any record whose options contain no
standalone `mtu <N>` token — including one with empty options —
completely unchanged. -/
theorem extractIface_noop (i : Iface) (h : containsMtuToken i.int_options = false) :
    extractIface i = i := by
  have htok : ∀ t, t ≤ i.int_options.length → tokenAt i.int_options t = none := by
    intro t ht
    have hall := List.any_eq_false.mp h
    have := hall t (List.mem_range.mpr (by omega))
    exact Option.not_isSome_iff_eq_none.mp this
  have hs : reSearchPos i.int_options = none := reSearchPos_eq_none _ htok
  have hg : reSearchGroups i.int_options = none := by
    unfold reSearchGroups; rw [hs]; rfl
  unfold extractIface
  by_cases he : i.int_options.isEmpty = true
  · rw [if_pos he]
  · rw [if_neg he, hg]

/-- C8 witness: options `"media 1000baseT"` (no mtu token) and the record
around them are untouched by extraction. -/
theorem extractIface_noop_witness :
    extractIface ⟨"em0".toList, [], "media 1000baseT".toList, none⟩ =
      ⟨"em0".toList, [], "media 1000baseT".toList, none⟩ :=
  extractIface_noop ⟨"em0".toList, [], "media 1000baseT".toList, none⟩ (by decide)

/-! ### Claim C6: the LAGG MTU consolidation -/

/-- `findIface` only looks at the `int_interface` column. -/
theorem findIface_congr (l l' : List Iface)
    (h : l.map Iface.int_interface = l'.map Iface.int_interface) (nic : List Char) :
    findIface l nic = findIface l' nic := by
  unfold findIface
  have e : ∀ (L : List Iface), L.findIdx? (fun i => i.int_interface = nic)
      = (L.map Iface.int_interface).findIdx? (fun s => s = nic) := by
    intro L
    rw [List.findIdx?_map]
    rfl
  rw [e, e, h]

/-- Overwriting a row with one carrying the same `int_interface` leaves the
`int_interface` column unchanged. -/
theorem map_int_interface_set (l : List Iface) (idx : Nat) (r : Iface)
    (h : (l.getD idx default).int_interface = r.int_interface) :
    (l.set idx r).map Iface.int_interface = l.map Iface.int_interface := by
  rw [List.map_set]
  apply List.ext_getElem?
  intro n
  by_cases hn : idx = n
  · subst hn
    by_cases hlt : idx < l.length
    · rw [List.getElem?_set_self (by simpa using hlt)]
      rw [List.getElem?_map, List.getElem?_eq_getElem hlt]
      rw [List.getD_eq_getElem?_getD, List.getElem?_eq_getElem hlt] at h
      simp only [Option.getD_some] at h
      rw [Option.map_some', ← h]
    · have hle : (List.map Iface.int_interface l).length ≤ idx := by
        rw [List.length_map]; omega
      rw [List.set_eq_of_length_le hle]
  · rw [List.getElem?_set_ne hn]

theorem memberIdxs_congr (l l' : List Iface) (ms : List LaggMember)
    (h : l.map Iface.int_interface = l'.map Iface.int_interface) :
    memberIdxs l ms = memberIdxs l' ms :=
  List.filterMap_congr (fun m _ => findIface_congr l l' h m.lagg_physnic)

/-- `posMtu` at an index different from the overwritten one is unchanged. -/
theorem posMtu_set_ne (l : List Iface) (idx j : Nat) (r : Iface) (h : idx ≠ j) :
    posMtu (l.set idx r) j = posMtu l j := by
  unfold posMtu
  rw [List.getD_eq_getElem?_getD, List.getD_eq_getElem?_getD, List.getElem?_set_ne h]

/-- A row whose truthy MTU is absent is untouched by `clearMtu`. -/
theorem clearMtu_eq_self (l : List Iface) (idx : Nat)
    (h : posMtu l idx = none) : clearMtu (l.getD idx default) = l.getD idx default := by
  unfold posMtu at h
  unfold clearMtu
  cases hm : (l.getD idx default).int_mtu with
  | none => simp only [hm]
  | some v =>
    simp only [hm] at h ⊢
    by_cases hz : v = 0
    · rw [if_pos hz]
    · rw [if_neg hz] at h
      exact absurd h (by simp)

theorem consolidateMembers_cons (ifaces : List Iface) (lo : Option Nat)
    (m : LaggMember) (rest : List LaggMember) :
    consolidateMembers ifaces lo (m :: rest) =
      consolidateMembers (consolidateMemberStep (ifaces, lo) m).1
        (consolidateMemberStep (ifaces, lo) m).2 rest := by
  unfold consolidateMembers
  rw [List.foldl_cons]

theorem consolidateMemberStep_nofind (ifaces : List Iface) (lo : Option Nat)
    (m : LaggMember) (hf : findIface ifaces m.lagg_physnic = none) :
    consolidateMemberStep (ifaces, lo) m = (ifaces, lo) := by
  simp only [consolidateMemberStep, hf]

theorem consolidateMemberStep_skip (ifaces : List Iface) (lo : Option Nat)
    (m : LaggMember) (idx : Nat) (hf : findIface ifaces m.lagg_physnic = some idx)
    (hmtu : posMtu ifaces idx = none) :
    consolidateMemberStep (ifaces, lo) m = (ifaces, lo) := by
  unfold posMtu at hmtu
  cases hm : (ifaces.getD idx default).int_mtu with
  | none => simp only [consolidateMemberStep, hf, hm]
  | some v =>
    simp only [hm] at hmtu
    have hz : v = 0 := by
      by_cases hz : v = 0
      · exact hz
      · rw [if_neg hz] at hmtu
        exact absurd hmtu (by simp)
    simp only [consolidateMemberStep, hf, hm]
    rw [if_pos hz]

theorem consolidateMemberStep_clear (ifaces : List Iface) (lo : Option Nat)
    (m : LaggMember) (idx : Nat) (v : Nat)
    (hf : findIface ifaces m.lagg_physnic = some idx)
    (hmtu : (ifaces.getD idx default).int_mtu = some v) (hv : v ≠ 0) :
    consolidateMemberStep (ifaces, lo) m =
      (ifaces.set idx { ifaces.getD idx default with int_mtu := none },
        lowestUpdate lo v) := by
  simp only [consolidateMemberStep, hf, hmtu]
  rw [if_neg hv]

/-- The member loop of the consolidation, characterised: the table keeps its
length; rows not matched by any member are untouched; every matched row has
its truthy MTU cleared; and the final `lowest_mtu` is the running minimum of
the truthy MTUs, in member order. -/
theorem consolidateMembers_spec :
    ∀ (ms : List LaggMember) (ifaces : List Iface) (lo : Option Nat),
      (memberIdxs ifaces ms).Nodup →
      (consolidateMembers ifaces lo ms).1.length = ifaces.length ∧
      (∀ j, j ∉ memberIdxs ifaces ms →
        (consolidateMembers ifaces lo ms).1[j]? = ifaces[j]?) ∧
      (∀ idx ∈ memberIdxs ifaces ms,
        (consolidateMembers ifaces lo ms).1[idx]? = (ifaces[idx]?).map clearMtu) ∧
      (consolidateMembers ifaces lo ms).2 = runMin lo (memberMtus ifaces ms) := by
  intro ms
  induction ms with
  | nil =>
    intro ifaces lo _
    exact ⟨rfl, fun j _ => rfl, fun idx h => absurd h (List.not_mem_nil idx), rfl⟩
  | cons m rest ih =>
    intro ifaces lo hnd
    cases hf : findIface ifaces m.lagg_physnic with
    | none =>
      have hid : memberIdxs ifaces (m :: rest) = memberIdxs ifaces rest := by
        unfold memberIdxs
        rw [List.filterMap_cons, hf]
      have hmt : memberMtus ifaces (m :: rest) = memberMtus ifaces rest := by
        unfold memberMtus
        rw [hid]
      rw [consolidateMembers_cons, consolidateMemberStep_nofind ifaces lo m hf]
      rw [hid, hmt]
      exact ih ifaces lo (hid ▸ hnd)
    | some idx =>
      have h' : ifaces.findIdx? (fun i => i.int_interface = m.lagg_physnic) = some idx := hf
      obtain ⟨hlt, -, -⟩ := List.findIdx?_eq_some_iff_getElem.mp h'
      have hid : memberIdxs ifaces (m :: rest) = idx :: memberIdxs ifaces rest := by
        unfold memberIdxs
        rw [List.filterMap_cons, hf]
      rw [hid] at hnd
      obtain ⟨hnotin, hnd'⟩ := List.nodup_cons.mp hnd
      cases hpos : posMtu ifaces idx with
      | none =>
        have hmt : memberMtus ifaces (m :: rest) = memberMtus ifaces rest := by
          unfold memberMtus
          rw [hid, List.filterMap_cons, hpos]
        rw [consolidateMembers_cons, consolidateMemberStep_skip ifaces lo m idx hf hpos]
        obtain ⟨ih1, ih2, ih3, ih4⟩ := ih ifaces lo hnd'
        refine ⟨ih1, ?_, ?_, by rw [hmt]; exact ih4⟩
        · intro j hj
          rw [hid, List.mem_cons] at hj
          push_neg at hj
          exact ih2 j hj.2
        · intro idx0 hidx0
          rw [hid, List.mem_cons] at hidx0
          rcases hidx0 with rfl | hmem
          · have hclear := clearMtu_eq_self ifaces idx0 hpos
            rw [List.getD_eq_getElem?_getD, List.getElem?_eq_getElem hlt] at hclear
            simp only [Option.getD_some] at hclear
            rw [ih2 idx0 hnotin, List.getElem?_eq_getElem hlt, Option.map_some', hclear]
          · exact ih3 idx0 hmem
      | some v =>
        have hvm : (ifaces.getD idx default).int_mtu = some v ∧ v ≠ 0 := by
          unfold posMtu at hpos
          cases hm : (ifaces.getD idx default).int_mtu with
          | none =>
            simp only [hm] at hpos
            exact absurd hpos (by simp)
          | some w =>
            simp only [hm] at hpos
            by_cases hz : w = 0
            · rw [if_pos hz] at hpos
              exact absurd hpos (by simp)
            · rw [if_neg hz] at hpos
              cases hpos
              exact ⟨rfl, hz⟩
        obtain ⟨hmtu, hv⟩ := hvm
        set r' : Iface := { ifaces.getD idx default with int_mtu := none } with hr'
        have hmap : (ifaces.set idx r').map Iface.int_interface
            = ifaces.map Iface.int_interface :=
          map_int_interface_set ifaces idx r' rfl
        have hidrest : memberIdxs (ifaces.set idx r') rest = memberIdxs ifaces rest :=
          memberIdxs_congr _ _ rest hmap
        have hmtrest : memberMtus (ifaces.set idx r') rest = memberMtus ifaces rest := by
          unfold memberMtus
          rw [hidrest]
          apply List.filterMap_congr
          intro j hj
          have hne : idx ≠ j := fun hcontra => hnotin (hcontra ▸ hj)
          exact posMtu_set_ne ifaces idx j r' hne
        have hmt : memberMtus ifaces (m :: rest) = v :: memberMtus ifaces rest := by
          unfold memberMtus
          rw [hid, List.filterMap_cons, hpos]
        rw [consolidateMembers_cons, consolidateMemberStep_clear ifaces lo m idx v hf hmtu hv]
        obtain ⟨ih1, ih2, ih3, ih4⟩ := ih (ifaces.set idx r') (lowestUpdate lo v)
          (hidrest ▸ hnd')
        rw [hidrest] at ih2 ih3
        refine ⟨by rw [ih1, List.length_set], ?_, ?_, ?_⟩
        · intro j hj
          rw [hid, List.mem_cons] at hj
          push_neg at hj
          rw [ih2 j hj.2, List.getElem?_set_ne (fun hcontra => hj.1 hcontra.symm)]
        · intro idx0 hidx0
          rw [hid, List.mem_cons] at hidx0
          rcases hidx0 with rfl | hmem
          · have hmtu' : (ifaces[idx0]).int_mtu = some v := by
              rw [List.getD_eq_getElem?_getD, List.getElem?_eq_getElem hlt] at hmtu
              simpa using hmtu
            have hr'' : r' = { ifaces[idx0] with int_mtu := none } := by
              rw [hr', List.getD_eq_getElem?_getD, List.getElem?_eq_getElem hlt]
              rfl
            have hcl : clearMtu ifaces[idx0] = r' := by
              unfold clearMtu
              simp only [hmtu']
              rw [if_neg hv, hr'']
            rw [ih2 idx0 hnotin, List.getElem?_set_self hlt,
              List.getElem?_eq_getElem hlt, Option.map_some', hcl]
          · rw [ih3 idx0 hmem,
              List.getElem?_set_ne (fun hcontra => hnotin (by rw [hcontra]; exact hmem))]
        · rw [ih4, hmtrest, hmt]
          rfl

theorem runMin_some_isSome :
    ∀ (vals : List Nat) (l : Nat), ∃ m, runMin (some l) vals = some m := by
  intro vals
  induction vals with
  | nil => intro l; exact ⟨l, rfl⟩
  | cons v vs ih =>
    intro l
    show ∃ m, runMin (lowestUpdate (some l) v) vs = some m
    simp only [lowestUpdate]
    by_cases hc : (l = 0 || v < l) = true
    · rw [if_pos hc]; exact ih v
    · rw [if_neg hc]; exact ih l

/-- The running minimum over positive values, starting from a positive
value, is a member of the candidates and a lower bound. -/
theorem runMin_some_spec :
    ∀ (vals : List Nat) (l : Nat), (∀ v ∈ vals, v ≠ 0) → l ≠ 0 →
      ∀ m, runMin (some l) vals = some m →
        (m = l ∨ m ∈ vals) ∧ m ≤ l ∧ (∀ v ∈ vals, m ≤ v) := by
  intro vals
  induction vals with
  | nil =>
    intro l _ _ m hm
    have he : l = m := by
      have : some l = some m := hm
      injection this
    subst he
    exact ⟨Or.inl rfl, Nat.le_refl _, fun v hv => absurd hv (List.not_mem_nil v)⟩
  | cons v vs ih =>
    intro l hpos hl m hm
    have hstep : runMin (some l) (v :: vs) = runMin (lowestUpdate (some l) v) vs := rfl
    have hv0 : v ≠ 0 := hpos v (List.mem_cons_self v vs)
    by_cases hlt : v < l
    · have hlu : lowestUpdate (some l) v = some v := by
        show (if (decide (l = 0) || decide (v < l)) = true then some v else some l) = some v
        rw [if_pos (by simp [hlt])]
      rw [hstep, hlu] at hm
      obtain ⟨hmem, hle, hall⟩ :=
        ih v (fun x hx => hpos x (List.mem_cons_of_mem v hx)) hv0 m hm
      refine ⟨?_, by omega, ?_⟩
      · rcases hmem with rfl | h
        · exact Or.inr (List.mem_cons_self m vs)
        · exact Or.inr (List.mem_cons_of_mem v h)
      · intro x hx
        rcases List.mem_cons.mp hx with rfl | h
        · exact hle
        · exact hall x h
    · have hlu : lowestUpdate (some l) v = some l := by
        show (if (decide (l = 0) || decide (v < l)) = true then some v else some l) = some l
        rw [if_neg (by simp [hl, hlt])]
      rw [hstep, hlu] at hm
      obtain ⟨hmem, hle, hall⟩ :=
        ih l (fun x hx => hpos x (List.mem_cons_of_mem v hx)) hl m hm
      refine ⟨?_, hle, ?_⟩
      · rcases hmem with rfl | h
        · exact Or.inl rfl
        · exact Or.inr (List.mem_cons_of_mem v h)
      · intro x hx
        rcases List.mem_cons.mp hx with rfl | h
        · omega
        · exact hall x h

/-- Every value collected by `memberMtus` is non-zero. -/
theorem memberMtus_pos (l : List Iface) (ms : List LaggMember) :
    ∀ x ∈ memberMtus l ms, x ≠ 0 := by
  intro x hx
  obtain ⟨idx, -, hp⟩ := List.mem_filterMap.mp hx
  unfold posMtu at hp
  cases hm : (l.getD idx default).int_mtu with
  | none =>
    simp only [hm] at hp
    exact absurd hp (by simp)
  | some v =>
    simp only [hm] at hp
    by_cases hz : v = 0
    · rw [if_pos hz] at hp
      exact absurd hp (by simp)
    · rw [if_neg hz] at hp
      cases hp
      exact hz

/-- C6 (amended): consolidating one LAGG (whose members match pairwise
distinct interface rows, none of them the parent row) clears each member
row's truthy — non-null, non-zero — MTU, and sets the parent row's MTU to
the minimum of those truthy MTUs; if no member row had a truthy MTU, the
parent row is left untouched.  Rows whose MTU is `0` (non-null but falsy in
Python) are neither counted nor cleared. -/
theorem consolidateLagg_spec (members : List LaggMember) (ifaces : List Iface)
    (k : Nat) (lg : LaggIface)
    (hnd : (memberIdxs ifaces (members.filter (fun m => m.lagg_interfacegroup = k))).Nodup)
    (hpar : lg.lagg_interface ∉
      memberIdxs ifaces (members.filter (fun m => m.lagg_interfacegroup = k)))
    (hplt : lg.lagg_interface < ifaces.length) :
    (∀ idx ∈ memberIdxs ifaces (members.filter (fun m => m.lagg_interfacegroup = k)),
      (consolidateLagg members ifaces k lg)[idx]? = (ifaces[idx]?).map clearMtu) ∧
    (memberMtus ifaces (members.filter (fun m => m.lagg_interfacegroup = k)) = [] →
      (consolidateLagg members ifaces k lg)[lg.lagg_interface]?
        = ifaces[lg.lagg_interface]?) ∧
    (∀ v vs,
      memberMtus ifaces (members.filter (fun m => m.lagg_interfacegroup = k)) = v :: vs →
      ∃ mn, (consolidateLagg members ifaces k lg)[lg.lagg_interface]?
          = some { ifaces.getD lg.lagg_interface default with int_mtu := some mn } ∧
        mn ∈ v :: vs ∧ ∀ x ∈ v :: vs, mn ≤ x) := by
  obtain ⟨in1, in2, in3, in4⟩ := consolidateMembers_spec
    (members.filter (fun m => m.lagg_interfacegroup = k)) ifaces none hnd
  have hposall := memberMtus_pos ifaces (members.filter (fun m => m.lagg_interfacegroup = k))
  cases hvals : memberMtus ifaces (members.filter (fun m => m.lagg_interfacegroup = k)) with
  | nil =>
    have h2 : (consolidateMembers ifaces none
        (members.filter (fun m => m.lagg_interfacegroup = k))).2 = none := by
      rw [in4, hvals]
      rfl
    have hout : consolidateLagg members ifaces k lg =
        (consolidateMembers ifaces none
          (members.filter (fun m => m.lagg_interfacegroup = k))).1 := by
      show (match (consolidateMembers ifaces none
              (members.filter (fun m => m.lagg_interfacegroup = k))).2 with
            | none => (consolidateMembers ifaces none
                (members.filter (fun m => m.lagg_interfacegroup = k))).1
            | some v =>
              if v = 0 then (consolidateMembers ifaces none
                  (members.filter (fun m => m.lagg_interfacegroup = k))).1
              else ((consolidateMembers ifaces none
                  (members.filter (fun m => m.lagg_interfacegroup = k))).1).set
                lg.lagg_interface
                { ((consolidateMembers ifaces none
                    (members.filter (fun m => m.lagg_interfacegroup = k))).1).getD
                      lg.lagg_interface default with int_mtu := some v }) = _
      rw [h2]
    refine ⟨?_, ?_, ?_⟩
    · intro idx hidx
      rw [hout]
      exact in3 idx hidx
    · intro _
      rw [hout]
      exact in2 _ hpar
    · intro v vs hcontra
      exact absurd hcontra (by simp)
  | cons v₀ vs₀ =>
    rw [hvals] at hposall
    have hv₀ : v₀ ≠ 0 := hposall v₀ (List.mem_cons_self v₀ vs₀)
    obtain ⟨mn, hmn⟩ := runMin_some_isSome vs₀ v₀
    have hmn' : runMin none (v₀ :: vs₀) = some mn := hmn
    obtain ⟨hmem', hle', hall'⟩ := runMin_some_spec vs₀ v₀
      (fun x hx => hposall x (List.mem_cons_of_mem v₀ hx)) hv₀ mn hmn
    have hmemc : mn ∈ v₀ :: vs₀ := by
      rcases hmem' with rfl | h
      · exact List.mem_cons_self mn vs₀
      · exact List.mem_cons_of_mem v₀ h
    have hminc : ∀ x ∈ v₀ :: vs₀, mn ≤ x := by
      intro x hx
      rcases List.mem_cons.mp hx with rfl | h
      · exact hle'
      · exact hall' x h
    have hmn0 : mn ≠ 0 := hposall mn hmemc
    have h2 : (consolidateMembers ifaces none
        (members.filter (fun m => m.lagg_interfacegroup = k))).2 = some mn := by
      rw [in4, hvals]
      exact hmn'
    have hout : consolidateLagg members ifaces k lg =
        ((consolidateMembers ifaces none
            (members.filter (fun m => m.lagg_interfacegroup = k))).1).set
          lg.lagg_interface
          { ((consolidateMembers ifaces none
              (members.filter (fun m => m.lagg_interfacegroup = k))).1).getD
                lg.lagg_interface default with int_mtu := some mn } := by
      show (match (consolidateMembers ifaces none
              (members.filter (fun m => m.lagg_interfacegroup = k))).2 with
            | none => (consolidateMembers ifaces none
                (members.filter (fun m => m.lagg_interfacegroup = k))).1
            | some v =>
              if v = 0 then (consolidateMembers ifaces none
                  (members.filter (fun m => m.lagg_interfacegroup = k))).1
              else ((consolidateMembers ifaces none
                  (members.filter (fun m => m.lagg_interfacegroup = k))).1).set
                lg.lagg_interface
                { ((consolidateMembers ifaces none
                    (members.filter (fun m => m.lagg_interfacegroup = k))).1).getD
                      lg.lagg_interface default with int_mtu := some v }) = _
      rw [h2]
      exact if_neg hmn0
    have hp1 : (consolidateMembers ifaces none
        (members.filter (fun m => m.lagg_interfacegroup = k))).1[lg.lagg_interface]?
        = ifaces[lg.lagg_interface]? := in2 _ hpar
    have hgd : ((consolidateMembers ifaces none
        (members.filter (fun m => m.lagg_interfacegroup = k))).1).getD
          lg.lagg_interface default = ifaces.getD lg.lagg_interface default := by
      rw [List.getD_eq_getElem?_getD, hp1, List.getD_eq_getElem?_getD]
    have hlt1 : lg.lagg_interface < (consolidateMembers ifaces none
        (members.filter (fun m => m.lagg_interfacegroup = k))).1.length := by
      rw [in1]
      exact hplt
    refine ⟨?_, ?_, ?_⟩
    · intro idx hidx
      rw [hout, List.getElem?_set_ne (fun hcontra => hpar (by rw [hcontra]; exact hidx))]
      exact in3 idx hidx
    · intro hcontra
      exact absurd hcontra (by simp)
    · intro v vs heq
      injection heq with hv hvs
      subst hv
      subst hvs
      refine ⟨mn, ?_, hmemc, hminc⟩
      rw [hout, List.getElem?_set_self hlt1, hgd]

/-- C6 witness (the spec scenario): members with MTUs 9000 and 1500 —
after consolidation the parent `lagg0` row has mtu 1500 and both member
rows have mtu null. -/
theorem consolidateLagg_spec_witness :
    (consolidateLagg [⟨0, "em0".toList, []⟩, ⟨0, "em1".toList, []⟩]
        [⟨"lagg0".toList, [], [], none⟩, ⟨"em0".toList, [], [], some 9000⟩,
          ⟨"em1".toList, [], [], some 1500⟩] 0 ⟨0⟩)[0]?
      = some ⟨"lagg0".toList, [], [], some 1500⟩ ∧
    (consolidateLagg [⟨0, "em0".toList, []⟩, ⟨0, "em1".toList, []⟩]
        [⟨"lagg0".toList, [], [], none⟩, ⟨"em0".toList, [], [], some 9000⟩,
          ⟨"em1".toList, [], [], some 1500⟩] 0 ⟨0⟩)[1]?
      = some ⟨"em0".toList, [], [], none⟩ ∧
    (consolidateLagg [⟨0, "em0".toList, []⟩, ⟨0, "em1".toList, []⟩]
        [⟨"lagg0".toList, [], [], none⟩, ⟨"em0".toList, [], [], some 9000⟩,
          ⟨"em1".toList, [], [], some 1500⟩] 0 ⟨0⟩)[2]?
      = some ⟨"em1".toList, [], [], none⟩ := by
  have h := consolidateLagg_spec [⟨0, "em0".toList, []⟩, ⟨0, "em1".toList, []⟩]
    [⟨"lagg0".toList, [], [], none⟩, ⟨"em0".toList, [], [], some 9000⟩,
      ⟨"em1".toList, [], [], some 1500⟩] 0 ⟨0⟩ (by decide) (by decide) (by decide)
  obtain ⟨mn, hmn, hmem, hmin⟩ := h.2.2 9000 [1500] (by decide)
  have h1 := hmin 1500 (by decide)
  have hmn1500 : mn = 1500 := by
    rcases List.mem_cons.mp hmem with rfl | hm
    · omega
    · rcases List.mem_cons.mp hm with rfl | hm2
      · rfl
      · exact absurd hm2 (List.not_mem_nil mn)
  rw [hmn1500] at hmn
  refine ⟨?_, ?_, ?_⟩
  · rw [hmn]
    decide
  · rw [h.1 1 (by decide)]
    decide
  · rw [h.1 2 (by decide)]
    decide

/-- C6 counterexample: a member interface row with `mtu = 0` — non-null,
but falsy in Python — is neither cleared nor counted into the minimum, so
the claim as stated (over non-null mtus) fails: it predicts the member row
cleared to null and the parent set to 0, while the code leaves both rows
as they are. -/
theorem consolidateLagg_spec_cex :
    ¬ ((consolidateLagg [⟨0, "em0".toList, []⟩]
          [⟨"lagg0".toList, [], [], none⟩, ⟨"em0".toList, [], [], some 0⟩] 0 ⟨0⟩)[1]?
        = some ⟨"em0".toList, [], [], none⟩ ∧
      (consolidateLagg [⟨0, "em0".toList, []⟩]
          [⟨"lagg0".toList, [], [], none⟩, ⟨"em0".toList, [], [], some 0⟩] 0 ⟨0⟩)[0]?
        = some ⟨"lagg0".toList, [], [], some 0⟩) := by decide

/-! ### Claim C9: several mtu tokens in one options string -/

/-- What a successful `tokenAt` means. -/
theorem tokenAt_spec (s : List Char) (t : Nat) (ds : List Char) (e : Nat)
    (h : tokenAt s t = some (ds, e)) :
    ['m', 't', 'u', ' '].isPrefixOf (s.drop t) = true ∧
    ds = (s.drop (t + 4)).takeWhile Char.isDigit ∧ ds ≠ [] ∧ e = t + 4 + ds.length := by
  unfold tokenAt at h
  split at h
  · split at h
    · rename_i hbd hpre
      have h' : (if ((s.drop (t + 4)).takeWhile Char.isDigit).isEmpty = true then none
          else if wordAt s (t + 4 + ((s.drop (t + 4)).takeWhile Char.isDigit).length) = true
            then none
            else some ((s.drop (t + 4)).takeWhile Char.isDigit,
              t + 4 + ((s.drop (t + 4)).takeWhile Char.isDigit).length)) = some (ds, e) := h
      clear h
      split at h'
      · exact absurd h' (by simp)
      · split at h'
        · exact absurd h' (by simp)
        · rename_i hne hw
          injection h' with h''
          injection h'' with ha hb
          refine ⟨hpre, ha.symm, ?_, ?_⟩
          · intro hcontra
            rw [ha, List.isEmpty_iff] at hne
            exact hne hcontra
          · rw [← hb, ← ha]
    · exact absurd h (by simp)
  · exact absurd h (by simp)

/-- A token needs at least its four leading characters inside the string. -/
theorem tokenAt_lt_length (s : List Char) (t : Nat) (p : List Char × Nat)
    (h : tokenAt s t = some p) : t < s.length := by
  obtain ⟨hpre, -, -, -⟩ := tokenAt_spec s t p.1 p.2 h
  by_contra hc
  push_neg at hc
  rw [List.drop_eq_nil_of_le hc] at hpre
  exact absurd hpre (by decide)

/-- Reading one character out of a prefix of a drop. -/
theorem getElem?_of_prefix_drop {u s : List Char} {t i : Nat}
    (h : u <+: s.drop t) (hi : i < u.length) : s[t + i]? = u[i]? := by
  obtain ⟨w, hw⟩ := h
  rw [← List.getElem?_drop, ← hw, List.getElem?_append]
  rw [if_pos hi]

/-- A successful search returns an actual token of the string. -/
theorem reSearchPos_token (s : List Char) (s0 t : Nat) (ds : List Char) (e : Nat)
    (h : reSearchPos s = some (s0, t, ds, e)) :
    tryStart s s0 = some (t, ds, e) ∧ tokenAt s t = some (ds, e) := by
  unfold reSearchPos at h
  obtain ⟨l₁, a, l₂, hsplit, hfa, hnone⟩ := List.findSome?_eq_some_iff.mp h
  cases hts : tryStart s a with
  | none =>
    rw [hts] at hfa
    exact absurd hfa (by simp)
  | some r =>
    rw [hts] at hfa
    simp only [Option.map_some', Option.some.injEq, Prod.mk.injEq] at hfa
    have ha1 : a = s0 := hfa.1
    have h2 : r.1 = t := hfa.2.1
    have h3 : r.2.1 = ds := hfa.2.2.1
    have h4 : r.2.2 = e := hfa.2.2.2
    subst ha1
    have hr : r = (t, ds, e) := by
      rw [← h2, ← h3, ← h4]
    rw [hr] at hts
    refine ⟨hts, ?_⟩
    unfold tryStart at hts
    obtain ⟨m₁, b, m₂, hsplit2, hfb, -⟩ := List.findSome?_eq_some_iff.mp hts
    cases htk : tokenAt s b with
    | none =>
      rw [htk] at hfb
      exact absurd hfb (by simp)
    | some de =>
      rw [htk] at hfb
      simp only [Option.map_some', Option.some.injEq, Prod.mk.injEq] at hfb
      have hb : b = t := hfb.1
      subst hb
      have h5 : de.1 = ds := hfb.2.1
      have h6 : de.2 = e := hfb.2.2
      have hde : de = (ds, e) := by
        rw [← h5, ← h6]
      rw [hde] at htk
      exact htk

/-- On a newline-free string the search starts at position 0 and — because
the greedy `before` tries the longest extent first — matches the LAST token
of the string. -/
theorem reSearchPos_no_newline (s : List Char) (hnl : '\n' ∉ s)
    (s0 t : Nat) (ds : List Char) (e : Nat)
    (h : reSearchPos s = some (s0, t, ds, e)) :
    s0 = 0 ∧ ∀ t' p, tokenAt s t' = some p → t' ≤ t := by
  obtain ⟨-, htk⟩ := reSearchPos_token s s0 t ds e h
  have hle0 : lineEnd s 0 = s.length := by
    unfold lineEnd
    rw [List.drop_zero, List.takeWhile_eq_self_iff.mpr ?_]
    · omega
    · intro x hx
      simp only [decide_eq_true_iff]
      intro hcontra
      rw [hcontra] at hx
      exact hnl hx
  have hltt := tokenAt_lt_length s t (ds, e) htk
  have hts0some : tryStart s 0 ≠ none := by
    intro hcontra
    unfold tryStart at hcontra
    have hmem : t ∈ (List.range (lineEnd s 0 - 0 + 1)).map (fun k => lineEnd s 0 - k) := by
      apply List.mem_map.mpr
      refine ⟨lineEnd s 0 - t, List.mem_range.mpr (by omega), by omega⟩
    have := List.findSome?_eq_none_iff.mp hcontra t hmem
    rw [htk] at this
    exact absurd this (by simp)
  have h0map : reSearchPos s = (tryStart s 0).map (fun r => (0, r.1, r.2.1, r.2.2)) := by
    unfold reSearchPos
    rw [List.range_succ_eq_map, List.findSome?_cons]
    cases hts : tryStart s 0 with
    | none => exact absurd hts hts0some
    | some r => rfl
  rw [h] at h0map
  cases hts : tryStart s 0 with
  | none => exact absurd hts hts0some
  | some r =>
    rw [hts] at h0map
    simp only [Option.map_some', Option.some.injEq, Prod.mk.injEq] at h0map
    have h0 : s0 = 0 := h0map.1
    have h2 : t = r.1 := h0map.2.1
    have h3 : ds = r.2.1 := h0map.2.2.1
    have h4 : e = r.2.2 := h0map.2.2.2
    refine ⟨h0, ?_⟩
    have htseq : tryStart s 0 = some (t, ds, e) := by
      rw [hts, h2, h3, h4]
    intro t' p htk'
    by_contra hgt
    push_neg at hgt
    unfold tryStart at htseq
    obtain ⟨m₁, b, m₂, hsplit2, hfb, hnone2⟩ := List.findSome?_eq_some_iff.mp htseq
    have hb : b = t := by
      cases htkb : tokenAt s b with
      | none =>
        rw [htkb] at hfb
        exact absurd hfb (by simp)
      | some q =>
        rw [htkb] at hfb
        simp only [Option.map_some', Option.some.injEq, Prod.mk.injEq] at hfb
        exact hfb.1
    subst hb
    have hpw : List.Pairwise (fun a b => b < a)
        ((List.range (lineEnd s 0 - 0 + 1)).map (fun k => lineEnd s 0 - k)) := by
      rw [List.pairwise_map, List.pairwise_iff_getElem]
      intro i j hi hj hij
      simp only [List.length_range] at hi hj
      rw [List.getElem_range, List.getElem_range]
      omega
    have ht'mem : t' ∈ (List.range (lineEnd s 0 - 0 + 1)).map (fun k => lineEnd s 0 - k) := by
      apply List.mem_map.mpr
      have hlt' := tokenAt_lt_length s t' p htk'
      refine ⟨lineEnd s 0 - t', List.mem_range.mpr (by omega), by omega⟩
    rw [hsplit2] at ht'mem hpw
    rcases List.mem_append.mp ht'mem with hm1 | hm2
    · have := hnone2 t' hm1
      rw [htk'] at this
      exact absurd this (by simp)
    · rcases List.mem_cons.mp hm2 with rfl | hm2'
      · omega
      · rw [List.pairwise_append] at hpw
        have hp2 := hpw.2.1
        rw [List.pairwise_cons] at hp2
        have := hp2.1 t' hm2'
        omega

/-- Two tokens cannot overlap: an earlier token ends at or before a later
token's start (no character of a token other than its first is an `m`). -/
theorem token_end_le (s : List Char) (t' t : Nat) (ds' ds : List Char) (e' e : Nat)
    (h1 : tokenAt s t' = some (ds', e')) (h2 : tokenAt s t = some (ds, e))
    (hlt : t' < t) : e' ≤ t := by
  by_contra hc
  push_neg at hc
  obtain ⟨hpre', hds', hne', he'⟩ := tokenAt_spec s t' ds' e' h1
  obtain ⟨hpre, -, -, -⟩ := tokenAt_spec s t ds e h2
  rw [List.isPrefixOf_iff_prefix] at hpre hpre'
  have hm : s[t]? = some 'm' := by
    have hg := getElem?_of_prefix_drop hpre (by decide : (0 : Nat) < 4)
    simpa using hg
  rcases Nat.lt_or_ge (t - t') 4 with h4 | h4
  · have hi1 : t - t' = 1 ∨ t - t' = 2 ∨ t - t' = 3 := by omega
    rcases hi1 with hh | hh | hh
    · have hx := getElem?_of_prefix_drop hpre' (by decide : (1 : Nat) < 4)
      rw [show t' + 1 = t by omega, hm] at hx
      exact absurd hx (by decide)
    · have hx := getElem?_of_prefix_drop hpre' (by decide : (2 : Nat) < 4)
      rw [show t' + 2 = t by omega, hm] at hx
      exact absurd hx (by decide)
    · have hx := getElem?_of_prefix_drop hpre' (by decide : (3 : Nat) < 4)
      rw [show t' + 3 = t by omega, hm] at hx
      exact absurd hx (by decide)
  · have hoff : t - t' - 4 < ds'.length := by omega
    have hdpre : ds' <+: s.drop (t' + 4) := by
      rw [hds']
      exact List.takeWhile_prefix _
    have hx := getElem?_of_prefix_drop hdpre hoff
    rw [show t' + 4 + (t - t' - 4) = t by omega, hm] at hx
    cases hq : ds'[t - t' - 4]? with
    | none =>
      rw [hq] at hx
      exact absurd hx (by simp)
    | some c =>
      rw [hq] at hx
      have hcm : c = 'm' := by
        injection hx with h'
        exact h'.symm
      have hcmem : c ∈ ds' := List.getElem?_mem hq
      have hdg : c.isDigit = true := by
        rw [hds'] at hcmem
        exact List.mem_takeWhile_imp hcmem
      rw [hcm] at hdg
      exact absurd hdg (by decide)

/-- A decimal digit is not a whitespace character. -/
theorem isDigit_not_space (c : Char) (h : c.isDigit = true) : isSpaceChar c = false := by
  cases hs : isSpaceChar c with
  | false => rfl
  | true =>
    exfalso
    unfold isSpaceChar at hs
    simp only [Bool.or_eq_true, beq_iff_eq] at hs
    have hc : c = ' ' ∨ c = '\t' ∨ c = '\n' ∨ c = '\x0d' ∨ c = '\x0b' ∨ c = '\x0c' := by
      tauto
    rcases hc with rfl | rfl | rfl | rfl | rfl | rfl <;> exact absurd h (by decide)

theorem chain'_of_all_nonspace (l : List Char) (h : ∀ c ∈ l, isSpaceChar c = false) :
    List.Chain' (fun a b => isSpaceChar a = false ∨ isSpaceChar b = false) l := by
  induction l with
  | nil => exact List.chain'_nil
  | cons a l' ih =>
    cases l' with
    | nil => exact List.chain'_singleton a
    | cons b l'' =>
      rw [List.chain'_cons]
      exact ⟨Or.inl (h a (by simp)), ih (fun c hc => h c (List.mem_cons_of_mem a hc))⟩

/-- A token string `"mtu " ++ digits` never has two adjacent whitespace
characters. -/
theorem token_chain (ds : List Char) (hd : ∀ c ∈ ds, c.isDigit = true) :
    List.Chain' (fun a b => isSpaceChar a = false ∨ isSpaceChar b = false)
      ('m' :: 't' :: 'u' :: ' ' :: ds) := by
  rw [List.chain'_cons]
  refine ⟨Or.inl (by decide), ?_⟩
  rw [List.chain'_cons]
  refine ⟨Or.inl (by decide), ?_⟩
  rw [List.chain'_cons]
  refine ⟨Or.inl (by decide), ?_⟩
  cases ds with
  | nil => exact List.chain'_singleton ' '
  | cons d ds' =>
    rw [List.chain'_cons]
    refine ⟨Or.inr (isDigit_not_space d (hd d (by simp))), ?_⟩
    exact chain'_of_all_nonspace (d :: ds') (fun c hc => isDigit_not_space c (hd c hc))

/-- A prefix that never has two adjacent whitespace characters and does not
end in whitespace survives the whitespace collapsing. -/
theorem prefix_collapseWs :
    ∀ (w u : List Char),
      List.Chain' (fun a b => isSpaceChar a = false ∨ isSpaceChar b = false) u →
      (∀ c, u.getLast? = some c → isSpaceChar c = false) →
      u <+: w → u <+: collapseWs w
  | [], u, _, _, hp => by
      rw [List.prefix_nil.mp hp]
      exact List.nil_prefix
  | [c], u, _, _, hp => by
      rw [collapseWs_singleton]
      exact hp
  | c1 :: c2 :: rest, u, hch, hlast, hp => by
      rw [collapseWs_cons₂]
      by_cases hsp : (isSpaceChar c1 && isSpaceChar c2) = true
      · rw [if_pos hsp]
        rw [Bool.and_eq_true] at hsp
        match u, hch, hlast, hp with
        | [], _, _, _ => exact List.nil_prefix
        | [x], _, hlast, hp =>
          exfalso
          obtain ⟨tl, htl⟩ := hp
          injection htl with hx _
          have hl := hlast x rfl
          rw [hx, hsp.1] at hl
          exact absurd hl (by decide)
        | x :: y :: u', hch, _, hp =>
          exfalso
          obtain ⟨tl, htl⟩ := hp
          injection htl with hx htl'
          injection htl' with hy _
          have hxy := (List.chain'_cons.mp hch).1
          rw [hx, hy, hsp.1, hsp.2] at hxy
          rcases hxy with hcon | hcon <;> exact absurd hcon (by decide)
      · rw [if_neg hsp]
        match u, hch, hlast, hp with
        | [], _, _, _ => exact List.nil_prefix
        | x :: u', hch, hlast, hp =>
          obtain ⟨tl, htl⟩ := hp
          injection htl with hx htl'
          subst hx
          refine List.cons_prefix_cons.mpr ⟨rfl, ?_⟩
          apply prefix_collapseWs (c2 :: rest) u'
          · exact hch.tail
          · intro c hc
            apply hlast
            cases u' with
            | nil => simp at hc
            | cons a b =>
              rw [List.getLast?_cons_cons]
              exact hc
          · exact ⟨tl, htl'⟩
termination_by w => w.length
decreasing_by simp

/-- An infix with a non-whitespace head survives `dropWhile isSpaceChar`. -/
theorem infix_dropWhile_of_head (u : List Char)
    (hhead : ∀ c, u.head? = some c → isSpaceChar c = false) :
    ∀ l, u <:+: l → u <:+: l.dropWhile isSpaceChar := by
  intro l
  induction l with
  | nil =>
    intro h
    exact h
  | cons a l' ih =>
    intro h
    rw [List.dropWhile_cons]
    by_cases hws : isSpaceChar a = true
    · rw [if_pos hws]
      rcases List.infix_cons_iff.mp h with hpre | hinf
      · cases u with
        | nil => exact List.nil_infix
        | cons x u' =>
          exfalso
          obtain ⟨tl, htl⟩ := hpre
          injection htl with hx _
          have hh := hhead x rfl
          rw [hx, hws] at hh
          exact absurd hh (by decide)
      · exact ih hinf
    · rw [if_neg hws]
      exact h

/-- An infix that never has two adjacent whitespace characters and neither
starts nor ends in whitespace survives the whitespace collapsing. -/
theorem infix_collapseWs :
    ∀ (w u : List Char),
      List.Chain' (fun a b => isSpaceChar a = false ∨ isSpaceChar b = false) u →
      (∀ c, u.head? = some c → isSpaceChar c = false) →
      (∀ c, u.getLast? = some c → isSpaceChar c = false) →
      u <:+: w → u <:+: collapseWs w
  | [], u, _, _, _, hi => by
      rw [List.infix_nil.mp hi]
      exact List.nil_infix
  | [c], u, _, _, _, hi => by
      rw [collapseWs_singleton]
      exact hi
  | c1 :: c2 :: rest, u, hch, hhead, hlast, hi => by
      rw [collapseWs_cons₂]
      by_cases hsp : (isSpaceChar c1 && isSpaceChar c2) = true
      · rw [if_pos hsp]
        rw [Bool.and_eq_true] at hsp
        rcases List.infix_cons_iff.mp hi with hpre | hinf
        · cases u with
          | nil => exact List.nil_infix
          | cons x u' =>
            exfalso
            obtain ⟨tl, htl⟩ := hpre
            injection htl with hx _
            have hh := hhead x rfl
            rw [hx, hsp.1] at hh
            exact absurd hh (by decide)
        · have hdw : u <:+: (c2 :: rest).dropWhile isSpaceChar :=
            infix_dropWhile_of_head u hhead (c2 :: rest) hinf
          exact List.infix_cons
            (infix_collapseWs ((c2 :: rest).dropWhile isSpaceChar) u hch hhead hlast hdw)
      · rw [if_neg hsp]
        rcases List.infix_cons_iff.mp hi with hpre | hinf
        · have hp := prefix_collapseWs (c1 :: c2 :: rest) u hch hlast hpre
          rw [collapseWs_cons₂, if_neg hsp] at hp
          exact List.IsPrefix.isInfix hp
        · exact List.infix_cons (infix_collapseWs (c2 :: rest) u hch hhead hlast hinf)
termination_by w => w.length
decreasing_by
  · have hdw := (List.dropWhile_sublist (l := c2 :: rest) isSpaceChar).length_le
    simp at hdw ⊢
    omega
  · simp

/-- C9 (amended): when the options string contains no newline, the extractor
matches the LAST standalone `mtu <N>` token — the greedy before-capture
absorbs all earlier ones — sets `int_mtu` to its integer value, and every
earlier token remains verbatim (as a substring) inside the resulting
options string.  (With a newline the match is confined to the first line
that carries a token, so the claim fails as stated.) -/
theorem extract_last_token (i : Iface) (s0 t : Nat) (ds : List Char) (e : Nat)
    (hnl : '\n' ∉ i.int_options)
    (h : reSearchPos i.int_options = some (s0, t, ds, e)) :
    tokenAt i.int_options t = some (ds, e) ∧
    (∀ t' p, tokenAt i.int_options t' = some p → t' ≤ t) ∧
    (extractIface i).int_mtu = some (digitsToNat ds) ∧
    (∀ t' ds' e', t' < t → tokenAt i.int_options t' = some (ds', e') →
      (['m', 't', 'u', ' '] ++ ds') <:+: (extractIface i).int_options) := by
  obtain ⟨-, htk⟩ := reSearchPos_token i.int_options s0 t ds e h
  obtain ⟨hs0, hmax⟩ := reSearchPos_no_newline i.int_options hnl s0 t ds e h
  subst hs0
  have hltt := tokenAt_lt_length i.int_options t (ds, e) htk
  have hne : i.int_options ≠ [] := by
    intro hcontra
    rw [hcontra] at hltt
    simp at hltt
  have hisEmpty : ¬ (i.int_options.isEmpty = true) := by
    rw [List.isEmpty_iff]
    exact hne
  have hgroups : reSearchGroups i.int_options =
      some ((i.int_options.drop 0).take (t - 0), ds,
        (i.int_options.drop e).takeWhile (fun c => c ≠ '\n')) := by
    unfold reSearchGroups
    rw [h]
    rfl
  have hbefore : (i.int_options.drop 0).take (t - 0) = i.int_options.take t := by
    simp
  rw [hbefore] at hgroups
  have hmtueq : (extractIface i).int_mtu = some (digitsToNat ds) := by
    unfold extractIface
    rw [if_neg hisEmpty, hgroups]
  have hopt : (extractIface i).int_options =
      collapseWs (i.int_options.take t ++
        (i.int_options.drop e).takeWhile (fun c => c ≠ '\n')) := by
    unfold extractIface
    rw [if_neg hisEmpty, hgroups]
  refine ⟨htk, hmax, hmtueq, ?_⟩
  intro t' ds' e' hlt' htk'
  obtain ⟨hpre', hds', hne', he'⟩ := tokenAt_spec i.int_options t' ds' e' htk'
  rw [List.isPrefixOf_iff_prefix] at hpre'
  obtain ⟨w1, hw1⟩ := hpre'
  have hw1' : i.int_options.drop (t' + 4) = w1 := by
    rw [← List.drop_drop 4 t' i.int_options, ← hw1]
    exact List.drop_left ['m', 't', 'u', ' '] w1
  have hdpre : ds' <+: w1 := by
    rw [hds', ← hw1']
    exact List.takeWhile_prefix _
  obtain ⟨w2, hw2⟩ := hdpre
  have hupre : ('m' :: 't' :: 'u' :: ' ' :: ds') <+: i.int_options.drop t' := by
    refine ⟨w2, ?_⟩
    rw [← hw1, ← hw2]
    simp
  have hend := token_end_le i.int_options t' t ds' ds e' e htk' htk hlt'
  have hlen : ('m' :: 't' :: 'u' :: ' ' :: ds').length ≤ t - t' := by
    simp only [List.length_cons]
    omega
  have hupre2 : ('m' :: 't' :: 'u' :: ' ' :: ds') <+:
      (i.int_options.drop t').take (t - t') :=
    List.prefix_take_iff.mpr ⟨hupre, hlen⟩
  have heq : (i.int_options.drop t').take (t - t') = (i.int_options.take t).drop t' :=
    (List.drop_take t t' i.int_options).symm
  rw [heq] at hupre2
  have hinfix1 : ('m' :: 't' :: 'u' :: ' ' :: ds') <:+: i.int_options.take t :=
    List.infix_iff_prefix_suffix.mpr
      ⟨(i.int_options.take t).drop t', hupre2, List.drop_suffix _ _⟩
  obtain ⟨p, q, hpq⟩ := hinfix1
  have hinfix2 : ('m' :: 't' :: 'u' :: ' ' :: ds') <:+:
      (i.int_options.take t ++ (i.int_options.drop e).takeWhile (fun c => c ≠ '\n')) := by
    refine ⟨p, q ++ (i.int_options.drop e).takeWhile (fun c => c ≠ '\n'), ?_⟩
    rw [← hpq]
    simp
  have hdig : ∀ c ∈ ds', c.isDigit = true := by
    intro c hcmem
    rw [hds'] at hcmem
    exact List.mem_takeWhile_imp hcmem
  have hch := token_chain ds' hdig
  have hhead : ∀ c, ('m' :: 't' :: 'u' :: ' ' :: ds').head? = some c →
      isSpaceChar c = false := by
    intro c hc
    injection hc with hc'
    rw [← hc']
    decide
  have hlast : ∀ c, ('m' :: 't' :: 'u' :: ' ' :: ds').getLast? = some c →
      isSpaceChar c = false := by
    intro c hc
    have hgl : ('m' :: 't' :: 'u' :: ' ' :: ds').getLast? =
        ds'.getLast?.or (['m', 't', 'u', ' '].getLast?) :=
      @List.getLast?_append Char ['m', 't', 'u', ' '] ds' 
    rw [hgl] at hc
    cases hdl : ds'.getLast? with
    | none => exact absurd (List.getLast?_eq_none_iff.mp hdl) hne'
    | some d =>
      rw [hdl] at hc
      have hc2 : some d = some c := hc
      injection hc2 with hc'
      rw [← hc']
      exact isDigit_not_space d (hdig d (List.mem_of_mem_getLast? hdl))
  have hfin := infix_collapseWs _ _ hch hhead hlast hinfix2
  rw [hopt]
  exact hfin

/-- C9 witness: `options = "mtu 1 mtu 2"` — the second token wins
(`mtu = 2`) and the first token remains verbatim in the resulting
options `"mtu 1 "`. -/
theorem extract_last_token_witness :
    (extractIface ⟨"em0".toList, [], "mtu 1 mtu 2".toList, none⟩).int_mtu = some 2 ∧
    (['m', 't', 'u', ' '] ++ "1".toList) <:+:
      (extractIface ⟨"em0".toList, [], "mtu 1 mtu 2".toList, none⟩).int_options := by
  have h := extract_last_token ⟨"em0".toList, [], "mtu 1 mtu 2".toList, none⟩ 0 6
    ("2".toList) 11 (by decide) (by decide)
  refine ⟨?_, ?_⟩
  · rw [h.2.2.1]
    decide
  · exact h.2.2.2 0 ("1".toList) 5 (by decide) (by decide)

/-- C9 counterexample: with a newline, `options = "mtu 1\nmtu 2"` — the
last token has value 2 but the match cannot cross the newline, so the code
stores 1, not 2. -/
theorem extract_last_token_cex :
    (extractIface ⟨"em0".toList, [], "mtu 1\nmtu 2".toList, none⟩).int_mtu ≠ some 2 := by
  decide

/-! ### Claim C1: no mtu token left after the migration -/

theorem two_mem_le_length {α : Type} (l : List α) (a b : α)
    (ha : a ∈ l) (hb : b ∈ l) (hab : a ≠ b) : 2 ≤ l.length := by
  cases l with
  | nil => exact absurd ha (List.not_mem_nil a)
  | cons c l' =>
    cases l' with
    | nil =>
      rw [List.mem_singleton] at ha hb
      exact absurd (ha.trans hb.symm) hab
    | cons d l'' => simp [Nat.le_add_left]

/-- Two distinct positions carrying the pattern mean at least two counted
occurrences. -/
theorem two_occ_le_countOcc (pat s : List Char) (hpat : pat ≠ []) (p1 p2 : Nat)
    (h12 : p1 ≠ p2)
    (h1 : pat <+: s.drop p1) (h2 : pat <+: s.drop p2) :
    2 ≤ countOcc pat s := by
  have hbound : ∀ p : Nat, pat <+: s.drop p → p < s.length + 1 := by
    intro p hp
    by_contra hc
    push_neg at hc
    rw [List.drop_eq_nil_of_le (by omega)] at hp
    exact hpat (List.prefix_nil.mp hp)
  unfold countOcc
  rw [List.countP_eq_length_filter]
  have hm1 : p1 ∈ (List.range (s.length + 1)).filter
      (fun p => pat.isPrefixOf (s.drop p)) := by
    rw [List.mem_filter]
    exact ⟨List.mem_range.mpr (hbound p1 h1), List.isPrefixOf_iff_prefix.mpr h1⟩
  have hm2 : p2 ∈ (List.range (s.length + 1)).filter
      (fun p => pat.isPrefixOf (s.drop p)) := by
    rw [List.mem_filter]
    exact ⟨List.mem_range.mpr (hbound p2 h2), List.isPrefixOf_iff_prefix.mpr h2⟩
  exact two_mem_le_length _ p1 p2 hm1 hm2 h12

theorem tryStart_le (s : List Char) (s0 t : Nat) (ds : List Char) (e : Nat)
    (h : tryStart s s0 = some (t, ds, e)) : s0 ≤ t := by
  unfold tryStart at h
  obtain ⟨m₁, b, m₂, hsplit, hfb, -⟩ := List.findSome?_eq_some_iff.mp h
  have hb : b = t := by
    cases htkb : tokenAt s b with
    | none =>
      rw [htkb] at hfb
      exact absurd hfb (by simp)
    | some q =>
      rw [htkb] at hfb
      simp only [Option.map_some', Option.some.injEq, Prod.mk.injEq] at hfb
      exact hfb.1
  subst hb
  have hbmem : b ∈ (List.range (lineEnd s s0 - s0 + 1)).map (fun k => lineEnd s s0 - k) := by
    rw [hsplit]
    simp
  obtain ⟨k, hk, hbk⟩ := List.mem_map.mp hbmem
  have hkr := List.mem_range.mp hk
  have hge : s0 ≤ lineEnd s s0 := by
    unfold lineEnd
    omega
  omega

/-- A successful match carries the word-boundary fact before the token. -/
theorem tokenAt_boundary (s : List Char) (t : Nat) (ds : List Char) (e : Nat)
    (h : tokenAt s t = some (ds, e)) :
    t = 0 ∨ wordAt s (t - 1) = false := by
  unfold tokenAt at h
  split at h
  · rename_i hbd
    simp only [Bool.or_eq_true, decide_eq_true_eq, Bool.not_eq_true'] at hbd
    exact hbd
  · exact absurd h (by simp)

theorem infix_iff_drop (u w : List Char) : u <:+: w ↔ ∃ p, u <+: w.drop p := by
  constructor
  · rintro ⟨pre, post, hpq⟩
    refine ⟨pre.length, ?_⟩
    rw [← hpq, List.append_assoc, List.drop_left]
    exact ⟨post, rfl⟩
  · rintro ⟨p, hp⟩
    exact List.infix_iff_prefix_suffix.mpr ⟨w.drop p, hp, List.drop_suffix p w⟩

/-- If the three characters `mtu` occur nowhere in `w`, then `w` carries no
`RE_MTU` token. -/
theorem no_token_of_no_mtu (w : List Char)
    (h : ∀ p, ¬ (['m', 't', 'u'] <+: w.drop p)) : containsMtuToken w = false := by
  unfold containsMtuToken
  rw [List.any_eq_false]
  intro t _
  cases htk : tokenAt w t with
  | none => simp
  | some p =>
    exfalso
    obtain ⟨hpre, -, -, -⟩ := tokenAt_spec w t p.1 p.2 htk
    rw [List.isPrefixOf_iff_prefix] at hpre
    obtain ⟨v, hv⟩ := hpre
    exact h t ⟨' ' :: v, by rw [← hv]; rfl⟩

/-- A search that fails means the string has no token. -/
theorem reSearchPos_ne_none_of_token (s : List Char) (t : Nat) (p : List Char × Nat)
    (h : tokenAt s t = some p) : reSearchPos s ≠ none := by
  intro hc
  unfold reSearchPos at hc
  have hlt := tokenAt_lt_length s t p h
  have h1 := List.findSome?_eq_none_iff.mp hc t (List.mem_range.mpr (by omega))
  rw [Option.map_eq_none'] at h1
  unfold tryStart at h1
  have hge : t ≤ lineEnd s t := by
    unfold lineEnd
    omega
  have hmem : t ∈ (List.range (lineEnd s t - t + 1)).map (fun k => lineEnd s t - k) := by
    apply List.mem_map.mpr
    exact ⟨lineEnd s t - t, List.mem_range.mpr (by omega), by omega⟩
  have h2 := List.findSome?_eq_none_iff.mp h1 t hmem
  rw [h] at h2
  exact absurd h2 (by simp)

/-- Whitespace collapsing cannot create a prefix made of non-whitespace
characters: such a prefix of the collapsed string was already a prefix. -/
theorem prefix_collapseWs_rev :
    ∀ (w u : List Char), (∀ c ∈ u, isSpaceChar c = false) →
      u <+: collapseWs w → u <+: w
  | [], u, _, hp => hp
  | [c], u, _, hp => by
      rw [collapseWs_singleton] at hp
      exact hp
  | c1 :: c2 :: rest, u, hns, hp => by
      rw [collapseWs_cons₂] at hp
      by_cases hsp : (isSpaceChar c1 && isSpaceChar c2) = true
      · rw [if_pos hsp] at hp
        cases u with
        | nil => exact List.nil_prefix
        | cons x u' =>
          exfalso
          obtain ⟨tl, htl⟩ := hp
          injection htl with hx _
          have hh := hns x (by simp)
          rw [hx] at hh
          exact absurd hh (by decide)
      · rw [if_neg hsp] at hp
        cases u with
        | nil => exact List.nil_prefix
        | cons x u' =>
          obtain ⟨tl, htl⟩ := hp
          injection htl with hx htl'
          subst hx
          refine List.cons_prefix_cons.mpr ⟨rfl, ?_⟩
          exact prefix_collapseWs_rev (c2 :: rest) u'
            (fun c hc => hns c (List.mem_cons_of_mem _ hc)) ⟨tl, htl'⟩
termination_by w => w.length
decreasing_by simp

/-- Whitespace collapsing cannot create an infix made of non-whitespace
characters: such an infix of the collapsed string was already an infix. -/
theorem infix_collapseWs_rev :
    ∀ (w u : List Char), u ≠ [] → (∀ c ∈ u, isSpaceChar c = false) →
      u <:+: collapseWs w → u <:+: w
  | [], u, _, _, hi => hi
  | [c], u, _, _, hi => by
      rw [collapseWs_singleton] at hi
      exact hi
  | c1 :: c2 :: rest, u, hne, hns, hi => by
      rw [collapseWs_cons₂] at hi
      by_cases hsp : (isSpaceChar c1 && isSpaceChar c2) = true
      · rw [if_pos hsp] at hi
        rcases List.infix_cons_iff.mp hi with hpre | hinf
        · cases u with
          | nil => exact absurd rfl hne
          | cons x u' =>
            exfalso
            obtain ⟨tl, htl⟩ := hpre
            injection htl with hx _
            have hh := hns x (by simp)
            rw [hx] at hh
            exact absurd hh (by decide)
        · have h1 := infix_collapseWs_rev ((c2 :: rest).dropWhile isSpaceChar) u hne hns hinf
          have h2 : u <:+: c2 :: rest :=
            h1.trans (List.IsSuffix.isInfix (List.dropWhile_suffix isSpaceChar))
          exact List.infix_cons h2
      · rw [if_neg hsp] at hi
        rcases List.infix_cons_iff.mp hi with hpre | hinf
        · cases u with
          | nil => exact absurd rfl hne
          | cons x u' =>
            obtain ⟨tl, htl⟩ := hpre
            injection htl with hx htl'
            subst hx
            have h1 := prefix_collapseWs_rev (c2 :: rest) u'
              (fun c hc => hns c (List.mem_cons_of_mem _ hc)) ⟨tl, htl'⟩
            exact List.IsPrefix.isInfix (List.cons_prefix_cons.mpr ⟨rfl, h1⟩)
        · exact List.infix_cons (infix_collapseWs_rev (c2 :: rest) u hne hns hinf)
termination_by w => w.length
decreasing_by
  · have hdw := (List.dropWhile_sublist (l := c2 :: rest) isSpaceChar).length_le
    simp at hdw ⊢
    omega
  · simp

/-- With at most one occurrence of the characters `mtu` in the whole string,
the concatenation of the `before` and `after` capture groups contains none:
the single occurrence is consumed by the matched token, the groups around it
contain no other, and no occurrence can straddle the junction because the
character before the token is not a word character. -/
theorem before_after_no_mtu (s : List Char) (s0 t : Nat) (ds : List Char) (e : Nat)
    (hcnt : countOcc ['m', 't', 'u'] s ≤ 1)
    (htk : tokenAt s t = some (ds, e))
    (hs0 : s0 ≤ t) :
    ∀ p, ¬ (['m', 't', 'u'] <+:
      (((s.drop s0).take (t - s0) ++
        (s.drop e).takeWhile (fun c => c ≠ '\n')).drop p)) := by
  intro p hp
  obtain ⟨hpre4, hds, hdne, he⟩ := tokenAt_spec s t ds e htk
  rw [List.isPrefixOf_iff_prefix] at hpre4
  have hocc_t : ['m', 't', 'u'] <+: s.drop t := by
    obtain ⟨w, hw⟩ := hpre4
    exact ⟨' ' :: w, by rw [← hw]; rfl⟩
  have hlt := tokenAt_lt_length s t (ds, e) htk
  have hblen : ((s.drop s0).take (t - s0)).length = t - s0 := by
    rw [List.length_take, List.length_drop]
    omega
  rw [List.drop_append_eq_append_drop] at hp
  by_cases hcase1 : ((s.drop s0).take (t - s0)).length ≤ p
  · rw [List.drop_eq_nil_of_le hcase1, List.nil_append] at hp
    have h1 : ['m', 't', 'u'] <+:
        s.drop (e + (p - ((s.drop s0).take (t - s0)).length)) := by
      rw [← List.drop_drop]
      exact hp.trans ((List.takeWhile_prefix _).drop _)
    have h2 : 2 ≤ countOcc ['m', 't', 'u'] s :=
      two_occ_le_countOcc _ _ (by simp) t
        (e + (p - ((s.drop s0).take (t - s0)).length)) (by omega) hocc_t h1
    omega
  · push_neg at hcase1
    rw [Nat.sub_eq_zero_of_le (Nat.le_of_lt hcase1), List.drop_zero] at hp
    by_cases hcase2 : p + 3 ≤ ((s.drop s0).take (t - s0)).length
    · have hpb : ['m', 't', 'u'] <+: ((s.drop s0).take (t - s0)).drop p := by
        have h1 : ['m', 't', 'u'] <+:
            ((((s.drop s0).take (t - s0)).drop p ++
              (s.drop e).takeWhile (fun c => c ≠ '\n')).take
                ((((s.drop s0).take (t - s0)).drop p).length)) := by
          apply List.prefix_take_iff.mpr
          refine ⟨hp, ?_⟩
          rw [List.length_drop]
          simp only [List.length_cons, List.length_nil]
          omega
        rw [List.take_left] at h1
        exact h1
      have hb2 : ((s.drop s0).take (t - s0)).drop p
          = (s.drop (s0 + p)).take (t - s0 - p) := by
        rw [List.drop_take, List.drop_drop]
      rw [hb2] at hpb
      have hpb2 : ['m', 't', 'u'] <+: s.drop (s0 + p) :=
        hpb.trans (List.take_prefix _ _)
      have h2 : 2 ≤ countOcc ['m', 't', 'u'] s :=
        two_occ_le_countOcc _ _ (by simp) (s0 + p) t (by omega) hpb2 hocc_t
      omega
    · push_neg at hcase2
      obtain ⟨w, hw⟩ := hp
      have hd01 : ((s.drop s0).take (t - s0)).length - p - 1 = 0 ∨
          ((s.drop s0).take (t - s0)).length - p - 1 = 1 := by omega
      have hidx := congrArg
        (fun l => l[((s.drop s0).take (t - s0)).length - p - 1]?) hw
      simp only at hidx
      have hrhs : ((((s.drop s0).take (t - s0)).drop p ++
          (s.drop e).takeWhile (fun c => c ≠ '\n')))[
            ((s.drop s0).take (t - s0)).length - p - 1]? = s[t - 1]? := by
        rw [List.getElem?_append]
        rw [if_pos (by rw [List.length_drop]; omega)]
        rw [List.getElem?_drop, List.getElem?_take]
        rw [if_pos (by omega)]
        rw [List.getElem?_drop]
        congr 1
        omega
      rw [hrhs] at hidx
      rcases tokenAt_boundary s t ds e htk with h0 | hbw
      · omega
      · unfold wordAt at hbw
        rcases hd01 with hd | hd
        · rw [hd] at hidx
          have hm : s[t - 1]? = some 'm' := by
            rw [← hidx]
            rfl
          simp only [hm] at hbw
          exact absurd hbw (by decide)
        · rw [hd] at hidx
          have hm : s[t - 1]? = some 't' := by
            rw [← hidx]
            rfl
          simp only [hm] at hbw
          exact absurd hbw (by decide)

theorem posMtu_of_some (l : List Iface) (idx v : Nat) (h : posMtu l idx = some v) :
    (l.getD idx default).int_mtu = some v ∧ v ≠ 0 := by
  unfold posMtu at h
  cases hm : (l.getD idx default).int_mtu with
  | none =>
    simp only [hm] at h
    exact absurd h (by simp)
  | some w =>
    simp only [hm] at h
    by_cases hz : w = 0
    · rw [if_pos hz] at h
      exact absurd h (by simp)
    · rw [if_neg hz] at h
      cases h
      exact ⟨rfl, hz⟩

/-- Overwriting only the mtu of a row leaves the options column unchanged. -/
theorem map_options_set_mtu (l : List Iface) (idx : Nat) (mv : Option Nat) (j : Nat) :
    ((l.set idx { l.getD idx default with int_mtu := mv })[j]?).map Iface.int_options
      = (l[j]?).map Iface.int_options := by
  by_cases hj : idx = j
  · subst hj
    by_cases hlt : idx < l.length
    · rw [List.getElem?_set_self hlt, List.getElem?_eq_getElem hlt]
      simp only [Option.map_some']
      rw [List.getD_eq_getElem?_getD, List.getElem?_eq_getElem hlt]
      rfl
    · rw [List.set_eq_of_length_le (by omega)]
  · rw [List.getElem?_set_ne hj]

/-- The member loop never changes any options column. -/
theorem consolidateMembers_options :
    ∀ (ms : List LaggMember) (ifaces : List Iface) (lo : Option Nat) (j : Nat),
      (((consolidateMembers ifaces lo ms).1)[j]?).map Iface.int_options
        = (ifaces[j]?).map Iface.int_options := by
  intro ms
  induction ms with
  | nil =>
    intro ifaces lo j
    rfl
  | cons m rest ih =>
    intro ifaces lo j
    rw [consolidateMembers_cons]
    cases hf : findIface ifaces m.lagg_physnic with
    | none =>
      rw [consolidateMemberStep_nofind ifaces lo m hf]
      exact ih ifaces lo j
    | some idx =>
      cases hpos : posMtu ifaces idx with
      | none =>
        rw [consolidateMemberStep_skip ifaces lo m idx hf hpos]
        exact ih ifaces lo j
      | some v =>
        obtain ⟨hmtu, hv⟩ := posMtu_of_some ifaces idx v hpos
        rw [consolidateMemberStep_clear ifaces lo m idx v hf hmtu hv]
        rw [ih]
        exact map_options_set_mtu ifaces idx none j

/-- Consolidating one LAGG never changes any options column. -/
theorem consolidateLagg_options (members : List LaggMember) (ifaces : List Iface)
    (k : Nat) (lg : LaggIface) (j : Nat) :
    ((consolidateLagg members ifaces k lg)[j]?).map Iface.int_options
      = (ifaces[j]?).map Iface.int_options := by
  cases h2 : (consolidateMembers ifaces none
      (members.filter (fun m => m.lagg_interfacegroup = k))).2 with
  | none =>
    have hout : consolidateLagg members ifaces k lg =
        (consolidateMembers ifaces none
          (members.filter (fun m => m.lagg_interfacegroup = k))).1 := by
      show (match (consolidateMembers ifaces none
              (members.filter (fun m => m.lagg_interfacegroup = k))).2 with
            | none => (consolidateMembers ifaces none
                (members.filter (fun m => m.lagg_interfacegroup = k))).1
            | some v =>
              if v = 0 then (consolidateMembers ifaces none
                  (members.filter (fun m => m.lagg_interfacegroup = k))).1
              else ((consolidateMembers ifaces none
                  (members.filter (fun m => m.lagg_interfacegroup = k))).1).set
                lg.lagg_interface
                { ((consolidateMembers ifaces none
                    (members.filter (fun m => m.lagg_interfacegroup = k))).1).getD
                      lg.lagg_interface default with int_mtu := some v }) = _
      rw [h2]
    rw [hout]
    exact consolidateMembers_options _ ifaces none j
  | some v =>
    have hout : consolidateLagg members ifaces k lg =
        (if v = 0 then (consolidateMembers ifaces none
            (members.filter (fun m => m.lagg_interfacegroup = k))).1
          else ((consolidateMembers ifaces none
              (members.filter (fun m => m.lagg_interfacegroup = k))).1).set
            lg.lagg_interface
            { ((consolidateMembers ifaces none
                (members.filter (fun m => m.lagg_interfacegroup = k))).1).getD
                  lg.lagg_interface default with int_mtu := some v }) := by
      show (match (consolidateMembers ifaces none
              (members.filter (fun m => m.lagg_interfacegroup = k))).2 with
            | none => (consolidateMembers ifaces none
                (members.filter (fun m => m.lagg_interfacegroup = k))).1
            | some v =>
              if v = 0 then (consolidateMembers ifaces none
                  (members.filter (fun m => m.lagg_interfacegroup = k))).1
              else ((consolidateMembers ifaces none
                  (members.filter (fun m => m.lagg_interfacegroup = k))).1).set
                lg.lagg_interface
                { ((consolidateMembers ifaces none
                    (members.filter (fun m => m.lagg_interfacegroup = k))).1).getD
                      lg.lagg_interface default with int_mtu := some v }) = _
      rw [h2]
    rw [hout]
    by_cases hz : v = 0
    · rw [if_pos hz]
      exact consolidateMembers_options _ ifaces none j
    · rw [if_neg hz]
      rw [map_options_set_mtu]
      exact consolidateMembers_options _ ifaces none j

/-- The whole consolidation pass never changes any options column. -/
theorem consolidate_fold_options (members : List LaggMember) :
    ∀ (laggs : List (Nat × LaggIface)) (ifaces : List Iface) (j : Nat),
      ((laggs.foldl (fun acc kl => consolidateLagg members acc kl.1 kl.2) ifaces)[j]?).map
          Iface.int_options
        = (ifaces[j]?).map Iface.int_options := by
  intro laggs
  induction laggs with
  | nil =>
    intro ifaces j
    rfl
  | cons kl rest ih =>
    intro ifaces j
    rw [List.foldl_cons, ih]
    exact consolidateLagg_options members ifaces kl.1 kl.2 j

/-- After extraction, a record whose options held at most one occurrence of
the substring `mtu` carries no token in its options. -/
theorem extractIface_no_token (i : Iface)
    (hcnt : countOcc ['m', 't', 'u'] i.int_options ≤ 1) :
    containsMtuToken (extractIface i).int_options = false := by
  by_cases hemp : i.int_options.isEmpty = true
  · have hid : extractIface i = i := by
      unfold extractIface
      rw [if_pos hemp]
    rw [hid, List.isEmpty_iff.mp hemp]
    decide
  · cases hsearch : reSearchPos i.int_options with
    | none =>
      have hg : reSearchGroups i.int_options = none := by
        unfold reSearchGroups
        rw [hsearch]
        rfl
      have hid : extractIface i = i := by
        unfold extractIface
        rw [if_neg hemp, hg]
      rw [hid]
      unfold containsMtuToken
      rw [List.any_eq_false]
      intro t _
      cases htk : tokenAt i.int_options t with
      | none => simp
      | some q =>
        exact absurd hsearch (reSearchPos_ne_none_of_token i.int_options t q htk)
    | some r =>
      obtain ⟨s0, t, ds, e⟩ := r
      have hg : reSearchGroups i.int_options =
          some ((i.int_options.drop s0).take (t - s0), ds,
            (i.int_options.drop e).takeWhile (fun c => c ≠ '\n')) := by
        unfold reSearchGroups
        rw [hsearch]
        rfl
      have hopt : (extractIface i).int_options =
          collapseWs ((i.int_options.drop s0).take (t - s0) ++
            (i.int_options.drop e).takeWhile (fun c => c ≠ '\n')) := by
        unfold extractIface
        rw [if_neg hemp, hg]
      rw [hopt]
      obtain ⟨hts, htk⟩ := reSearchPos_token i.int_options s0 t ds e hsearch
      have hnomtu := before_after_no_mtu i.int_options s0 t ds e hcnt htk
        (tryStart_le i.int_options s0 t ds e hts)
      apply no_token_of_no_mtu
      intro p hpref
      have hinf : ['m', 't', 'u'] <:+:
          collapseWs ((i.int_options.drop s0).take (t - s0) ++
            (i.int_options.drop e).takeWhile (fun c => c ≠ '\n')) :=
        (infix_iff_drop _ _).mpr ⟨p, hpref⟩
      have hinf2 := infix_collapseWs_rev _ _ (by simp) (by decide) hinf
      obtain ⟨p', hp'⟩ := (infix_iff_drop _ _).mp hinf2
      exact hnomtu p' hp'

/-- C1 (amended): after the full migration — options relocation, MTU
extraction, LAGG consolidation — every Interface record whose
post-relocation options contained at most one occurrence of the
three-character substring `mtu` has no standalone `mtu <N>` token left in
its options; `int_mtu` is then the only carrier of the MTU.  (With several
`mtu` tokens the extractor removes only the last one, so the unconditional
claim fails.) -/
theorem fullMigration_no_token (db : DB) (j : Nat)
    (hcnt : countOcc ['m', 't', 'u']
      (((moveLaggmemberOptions db).interfaces.getD j default).int_options) ≤ 1) :
    containsMtuToken
      (((fullMigration db).interfaces.getD j default).int_options) = false := by
  have heq : (((fullMigration db).interfaces)[j]?).map Iface.int_options
      = ((((moveLaggmemberOptions db).interfaces.map extractIface))[j]?).map
          Iface.int_options :=
    consolidate_fold_options (moveLaggmemberOptions db).members
      ((moveLaggmemberOptions db).laggs.enum)
      ((moveLaggmemberOptions db).interfaces.map extractIface) j
  by_cases hjl : j < (moveLaggmemberOptions db).interfaces.length
  · have hr : (((moveLaggmemberOptions db).interfaces.map extractIface))[j]?
        = some (extractIface ((moveLaggmemberOptions db).interfaces.getD j default)) := by
      rw [List.getElem?_map, List.getElem?_eq_getElem hjl]
      simp only [Option.map_some']
      rw [List.getD_eq_getElem?_getD, List.getElem?_eq_getElem hjl]
      rfl
    rw [hr] at heq
    cases hf : ((fullMigration db).interfaces)[j]? with
    | none =>
      rw [hf] at heq
      exact absurd heq (by simp)
    | some row =>
      rw [hf] at heq
      simp only [Option.map_some', Option.some.injEq] at heq
      rw [List.getD_eq_getElem?_getD, hf]
      simp only [Option.getD_some]
      rw [heq]
      exact extractIface_no_token _ hcnt
  · have hr : (((moveLaggmemberOptions db).interfaces.map extractIface))[j]? = none := by
      apply List.getElem?_eq_none
      rw [List.length_map]
      omega
    rw [hr] at heq
    simp only [Option.map_none'] at heq
    rw [Option.map_eq_none'] at heq
    rw [List.getD_eq_getElem?_getD, heq]
    decide

/-- C1 witness: a database with one interface whose options are
`"foo mtu 9000 bar"` (one `mtu` occurrence) ends the migration with no
token in its options. -/
theorem fullMigration_no_token_witness :
    containsMtuToken
      (((fullMigration ⟨[⟨"em0".toList, [], "foo mtu 9000 bar".toList, none⟩], [], []⟩
        ).interfaces.getD 0 default).int_options) = false :=
  fullMigration_no_token
    ⟨[⟨"em0".toList, [], "foo mtu 9000 bar".toList, none⟩], [], []⟩ 0 (by decide)

/-- C1 counterexample: with options `"mtu 1 mtu 2"` the extractor matches
only the second token, so after the full migration the options still
contain the standalone token `mtu 1` — the invariant as stated fails. -/
theorem fullMigration_no_token_cex :
    containsMtuToken
      (((fullMigration ⟨[⟨"em0".toList, [], "mtu 1 mtu 2".toList, none⟩], [], []⟩
        ).interfaces.getD 0 default).int_options) = true := by
  decide

end Migration0009
